import Mathlib

/-!
Verification development for the draftwise prompt manager.

The definitions below are shallow embeddings of the TypeScript source:
JS strings are modelled as `List Char` (or `String` where convenient),
the regex-based placeholder machinery of `PromptView.tsx` and
`ComparisonView.tsx` is modelled by explicit structural scanners, the
prompt-version store handlers of `App.tsx` become pure state-passing
functions, and the LLM service of `llmService.ts` is modelled with the
network interaction abstracted into explicit outcome values.
-/

namespace Draftwise

/-- Character class of the JS regex token for whitespace, by code point. -/
def isJsWs (c : Char) : Bool :=
  c.toNat == 9 || c.toNat == 10 || c.toNat == 11 || c.toNat == 12 ||
  c.toNat == 13 || c.toNat == 32 || c.toNat == 160 || c.toNat == 5760 ||
  (8192 ≤ c.toNat && c.toNat ≤ 8202) || c.toNat == 8232 || c.toNat == 8233 ||
  c.toNat == 8239 || c.toNat == 8287 || c.toNat == 12288 || c.toNat == 65279

/-- Character class of the JS regex token for word characters: letters, digits, underscore. -/
def isWordChar (c : Char) : Bool :=
  (97 ≤ c.toNat && c.toNat ≤ 122) || (65 ≤ c.toNat && c.toNat ≤ 90) ||
  (48 ≤ c.toNat && c.toNat ≤ 57) || c.toNat == 95

/-- Consume an exact character sequence from the front of a list, returning the remainder. -/
def stripName : List Char → List Char → Option (List Char)
  | [], s => some s
  | _ :: _, [] => none
  | n :: ns, c :: cs => if c = n then stripName ns cs else none

/-- Match, at the head of `s`, the regex used by handleRunPrompt for one binding key:
two opening braces, optional whitespace, the exact key, optional whitespace, two closing
braces.  Returns the remainder after the match.  Faithful to the greedy regex semantics
for keys made of word characters. -/
def matchVar (key : List Char) (s : List Char) : Option (List Char) :=
  match s with
  | c1 :: c2 :: r =>
    if c1 = '{' then if c2 = '{' then
      match stripName key (r.dropWhile isJsWs) with
      | some r2 =>
        match r2.dropWhile isJsWs with
        | d1 :: d2 :: rest => if d1 = '}' then if d2 = '}' then some rest else none else none
        | _ => none
      | none => none
    else none else none
  | _ => none

/-- Match, at the head of `s`, the variable-extraction regex of promptVariables:
two opening braces, optional whitespace, a nonempty run of word characters (the name),
optional whitespace, two closing braces.  Returns the full matched token text, the
captured name and the remainder. -/
def matchVarToken (s : List Char) : Option (List Char × List Char × List Char) :=
  match s with
  | c1 :: c2 :: r =>
    if c1 = '{' then if c2 = '{' then
      let w1 := r.takeWhile isJsWs
      let r1 := r.dropWhile isJsWs
      let name := r1.takeWhile isWordChar
      let r2 := r1.dropWhile isWordChar
      if name = [] then none else
      let w2 := r2.takeWhile isJsWs
      match r2.dropWhile isJsWs with
      | d1 :: d2 :: rest =>
        if d1 = '}' then if d2 = '}' then
          some ('{' :: '{' :: (w1 ++ name ++ w2 ++ ['}', '}']), name, rest)
        else none else none
      | _ => none
    else none else none
  | _ => none

/-- The backtick character, code point 96. -/
def backtickChar : Char := Char.ofNat 96

/-- The single-quote character, code point 39. -/
def squoteChar : Char := Char.ofNat 39

/-- ECMAScript GetSubstitution for a string replacement value and a regex with no
capture groups: dollar-dollar inserts a dollar, dollar-ampersand the matched text,
dollar-backtick the part of the subject before the match, dollar-quote the part after
it; every other character, including an unmatched dollar, is copied literally. -/
def getSubstitution (matched before after : List Char) : List Char → List Char
  | [] => []
  | c :: rest =>
    if c = '$' then
      match rest with
      | [] => ['$']
      | d :: rest2 =>
        if d = '$' then '$' :: getSubstitution matched before after rest2
        else if d = '&' then matched ++ getSubstitution matched before after rest2
        else if d = backtickChar then before ++ getSubstitution matched before after rest2
        else if d = squoteChar then after ++ getSubstitution matched before after rest2
        else '$' :: d :: getSubstitution matched before after rest2
    else c :: getSubstitution matched before after rest

/-- One pass of the JS global string replace for one binding:
scan left to right, replace every non-overlapping occurrence of the placeholder of
`key` by the replacement value (with GetSubstitution dollar expansion), copy every
other character.  `skip` counts characters of an already-processed match still to be
consumed, `pre` is the part of the original subject already consumed. -/
def replaceGo (key value : List Char) : List Char → Nat → List Char → List Char
  | [], _, _ => []
  | c :: cs, skip + 1, pre => replaceGo key value cs skip (pre ++ [c])
  | c :: cs, 0, pre =>
    match matchVar key (c :: cs) with
    | some rest =>
      let matched := (c :: cs).take ((c :: cs).length - rest.length)
      getSubstitution matched pre rest value ++ replaceGo key value cs (matched.length - 1) (pre ++ [c])
    | none => c :: replaceGo key value cs 0 (pre ++ [c])

/-- JS `template.replace(new RegExp(..., g), value)` for one binding key. -/
def replaceVar (key value s : List Char) : List Char :=
  replaceGo key value s 0 []

/-- The substitution step of handleRunPrompt / handleRunComparison: the bindings are
applied one after the other, in map iteration order, each as one global replace over
the result of the previous one. -/
def substituteVars (bindings : List (List Char × List Char)) (t : List Char) : List Char :=
  bindings.foldl (fun acc kv => replaceVar kv.1 kv.2 acc) t

/-- Look up a name among the binding keys. -/
def lookupB (bindings : List (List Char × List Char)) (n : List Char) : Option (List Char) :=
  (bindings.find? (fun kv => kv.1 = n)).map (fun kv => kv.2)

/-- Scanner for the specification-side substitution semantics `substituteSpec`. -/
def specGo (bindings : List (List Char × List Char)) : List Char → Nat → List Char
  | [], _ => []
  | _ :: cs, skip + 1 => specGo bindings cs skip
  | c :: cs, 0 =>
    match matchVarToken (c :: cs) with
    | some (tok, name, _rest) =>
      (match lookupB bindings name with
       | some v => v
       | none => tok) ++ specGo bindings cs (tok.length - 1)
    | none => c :: specGo bindings cs 0

/-- Substitution as the specification words it: one simultaneous left-to-right pass
over the template; every placeholder whose name is bound is replaced by the bound
string verbatim, every placeholder whose name is unbound is left literally, and
replacement output is never rescanned. -/
def substituteSpec (bindings : List (List Char × List Char)) (t : List Char) : List Char :=
  specGo bindings t 0

/-- Scanner collecting, in order, the names of all placeholder matches of the
extraction regex in a text. -/
def scanGo : List Char → Nat → List (List Char)
  | [], _ => []
  | _ :: cs, skip + 1 => scanGo cs skip
  | c :: cs, 0 =>
    match matchVarToken (c :: cs) with
    | some (tok, name, _rest) => name :: scanGo cs (tok.length - 1)
    | none => scanGo cs 0

/-- Keep-first deduplication, as the JS Set constructor does on an array. -/
def dedupFirst : List (List Char) → List (List Char) → List (List Char)
  | [], _ => []
  | n :: ns, seen => if n ∈ seen then dedupFirst ns seen else n :: dedupFirst ns (n :: seen)

/-- promptVariables of PromptView: the distinct placeholder names of the system
prompt followed by those of the user prompt, first occurrence first. -/
def extractVariables (sys usr : List Char) : List (List Char) :=
  dedupFirst (scanGo sys 0 ++ scanGo usr 0) []

/-- Strip leading and trailing whitespace characters. -/
def trimWs (l : List Char) : List Char :=
  (((l.dropWhile isJsWs).reverse).dropWhile isJsWs).reverse

/-- Metrics of one test run, as in types.ts. -/
structure TestResultMetrics where
  promptTokens : Nat
  completionTokens : Nat
  totalTokens : Nat
  responseTime : Nat
deriving DecidableEq

/-- One saved invocation record, as in types.ts. -/
structure TestResult where
  id : String
  response : String
  modelId : String
  «variables» : List (String × String)
  metrics : TestResultMetrics
  timestamp : String
deriving DecidableEq

/-- One prompt version record, as in types.ts. -/
structure PromptV where
  id : String
  baseId : String
  folderId : Option String
  title : String
  description : String
  systemPrompt : String
  userPrompt : String
  tags : List String
  version : Nat
  createdAt : String
  updatedAt : String
  forkedFrom : Option String := none
  savedTestResult : Option TestResult := none
deriving DecidableEq

/-- The slice of App state the version-store handlers read and write. -/
structure AppState where
  prompts : List PromptV
  selectedId : Option String
deriving DecidableEq

/-- Leftmost element of maximal version: the head of the stable descending sort
by version used by handleDeletePrompt. -/
def pickLatest (p : PromptV) (ps : List PromptV) : PromptV :=
  ps.foldl (fun best q => if best.version < q.version then q else best) p

/-- handleForkPrompt of App.tsx: copy the source record, give it a new id, a new
lineage rooted at that id, version 1, the source id as forkedFrom, fresh timestamps,
and the source title with a fork suffix; append it and select it.  A missing source
id leaves the state unchanged. -/
def handleForkPrompt (st : AppState) (id newId now : String) : AppState :=
  match st.prompts.find? (fun p => p.id == id) with
  | none => st
  | some orig =>
    let newPrompt : PromptV :=
      { orig with
        id := newId
        baseId := newId
        title := orig.title ++ " (Fork)"
        version := 1
        forkedFrom := some orig.id
        createdAt := now
        updatedAt := now }
    { prompts := st.prompts ++ [newPrompt], selectedId := some newId }

/-- handleNewVersion of App.tsx: copy the source record, keep its baseId, give it a
new id, fresh timestamps, and version one more than the maximal version of the
lineage of the source baseId; append it and select it.  A missing source id leaves
the state unchanged. -/
def handleNewVersion (st : AppState) (promptId newId now : String) : AppState :=
  match st.prompts.find? (fun p => p.id == promptId) with
  | none => st
  | some src =>
    let versions := st.prompts.filter (fun p => p.baseId == src.baseId)
    let maxVersion := (versions.map (fun p => p.version)).foldl Nat.max 0
    let newVersionPrompt : PromptV :=
      { src with
        id := newId
        version := maxVersion + 1
        createdAt := now
        updatedAt := now }
    { prompts := st.prompts ++ [newVersionPrompt], selectedId := some newId }

/-- handleDeletePrompt of App.tsx: drop the record with the given id; when it was
selected, reselect the surviving lineage member of highest version, else the survivor
at the deleted index of the original order, else the one before it, else nothing.
In the adjacent-survivor branch the JS expression nextPrompt question-dot id or-else
null coerces a falsy, that is empty-string, survivor id to the null selection. -/
def handleDeletePrompt (st : AppState) (id : String) : AppState :=
  match st.prompts.find? (fun p => p.id == id) with
  | none => st
  | some promptToDelete =>
    let updatedPrompts := st.prompts.filter (fun p => !(p.id == id))
    let sel :=
      if st.selectedId = some id then
        match updatedPrompts.filter (fun p => p.baseId == promptToDelete.baseId) with
        | p :: ps => some (pickLatest p ps).id
        | [] =>
          let promptIndex := st.prompts.findIdx (fun p => p.id == id)
          match updatedPrompts.get? promptIndex with
          | some nxt => if nxt.id = "" then none else some nxt.id
          | none =>
            match updatedPrompts.get? (promptIndex - 1) with
            | some prv => if prv.id = "" then none else some prv.id
            | none => none
      else st.selectedId
    { prompts := updatedPrompts, selectedId := sel }

/-- The three LLM providers. -/
inductive Provider where
  | gemini : Provider
  | openai : Provider
  | anthropic : Provider
deriving DecidableEq

/-- The lowercase provider key used in messages. -/
def providerName : Provider → String
  | .gemini => "gemini"
  | .openai => "openai"
  | .anthropic => "anthropic"

/-- One invokable model, as in types.ts. -/
structure ModelDefinition where
  id : String
  name : String
  provider : Provider
deriving DecidableEq

/-- The built-in static catalog of the current llmService. -/
def ALL_MODELS : List ModelDefinition :=
  [ { id := "gemini-2.5-flash", name := "Gemini 2.5 Flash", provider := .gemini },
    { id := "claude-3-5-sonnet-20240620", name := "Claude 3.5 Sonnet", provider := .anthropic },
    { id := "claude-3-opus-20240229", name := "Claude 3 Opus", provider := .anthropic },
    { id := "claude-3-haiku-20240307", name := "Claude 3 Haiku", provider := .anthropic } ]

/-- getModelProvider of llmService: look the model id up in the built-in catalog
followed by the caller-supplied available models. -/
def getModelProvider (modelId : String) (availableModels : List ModelDefinition) : Option Provider :=
  ((ALL_MODELS ++ availableModels).find? (fun m => m.id == modelId)).map (fun m => m.provider)

/-- estimateTokens of llmService: zero for the empty string, otherwise the rounded-up
quarter of the character count. -/
def estimateTokens (text : String) : Nat :=
  if text = "" then 0 else (text.length + 3) / 4

/-- Normalized usage numbers of one invocation. -/
structure Usage where
  promptTokens : Nat
  completionTokens : Nat
  totalTokens : Nat
deriving DecidableEq

/-- The normalized result of runPrompt. -/
structure LlmResponse where
  text : String
  usage : Usage
deriving DecidableEq

/-- What the Gemini SDK call does: return a text, or throw (with a message when the
thrown value is an Error). -/
inductive GeminiOutcome where
  | ok (text : String) : GeminiOutcome
  | exn (msg : Option String) : GeminiOutcome
deriving DecidableEq

/-- What the OpenAI chat-completions fetch does: a 2xx body, a non-2xx body whose
error message field may be absent, or a thrown exception. -/
inductive OpenAIOutcome where
  | ok (content : String) (prompt_tokens completion_tokens total_tokens : Nat) : OpenAIOutcome
  | httpError (errMsg : Option String) : OpenAIOutcome
  | exn (msg : Option String) : OpenAIOutcome
deriving DecidableEq

/-- What the Anthropic messages fetch does. -/
inductive AnthropicOutcome where
  | ok (text : String) (input_tokens output_tokens : Nat) : AnthropicOutcome
  | httpError (errMsg : Option String) : AnthropicOutcome
  | exn (msg : Option String) : AnthropicOutcome
deriving DecidableEq

/-- The behavior of the three provider transports for one invocation. -/
structure Transport where
  gemini : GeminiOutcome
  openai : OpenAIOutcome
  anthropic : AnthropicOutcome
deriving DecidableEq

/-- The JS fallback for a missing or empty vendor error message field. -/
def orUnknown : Option String → String
  | some s => if s = "" then "Unknown error" else s
  | none => "Unknown error"

/-- The try block of runPrompt for the resolved provider: the provider-specific
request, with thrown values represented as the error side, carrying the Error message
when there is one. -/
def tryBody (p : Provider) (userPrompt : String) (systemPrompt : Option String)
    (tr : Transport) : Except (Option String) LlmResponse :=
  match p with
  | .gemini =>
    match tr.gemini with
    | .ok text =>
      let promptTokens := estimateTokens userPrompt + estimateTokens (systemPrompt.getD (""))
      let completionTokens := estimateTokens text
      .ok { text := text
            usage := { promptTokens := promptTokens, completionTokens := completionTokens,
                       totalTokens := promptTokens + completionTokens } }
    | .exn m => .error m
  | .openai =>
    match tr.openai with
    | .ok content pt ct tt =>
      .ok { text := content, usage := { promptTokens := pt, completionTokens := ct, totalTokens := tt } }
    | .httpError em => .error (some ("OpenAI API error: " ++ orUnknown em))
    | .exn m => .error m
  | .anthropic =>
    match tr.anthropic with
    | .ok text it ot =>
      .ok { text := text, usage := { promptTokens := it, completionTokens := ot, totalTokens := it + ot } }
    | .httpError em => .error (some ("Anthropic API error: " ++ orUnknown em))
    | .exn m => .error m

/-- runPrompt for an already resolved provider: the empty-key configuration error is
raised before the try block; every failure inside it is re-thrown as the normalized
message. -/
def runWithProvider (p : Provider) (apiKey userPrompt : String) (systemPrompt : Option String)
    (tr : Transport) : Except String LlmResponse :=
  if apiKey = "" then .error ("API key for " ++ providerName p ++ " is not configured.")
  else
    match tryBody p userPrompt systemPrompt tr with
    | .ok r => .ok r
    | .error (some m) => .error ("An error occurred: " ++ m)
    | .error none =>
      .error ("An unknown error occurred while contacting the " ++ providerName p ++ " API.")

/-- runPrompt of the current llmService: resolve the provider of the model id, with
openai as the default when the id is unknown, then dispatch. -/
def runPrompt (modelId apiKey userPrompt : String) (systemPrompt : Option String)
    (availableModels : List ModelDefinition) (tr : Transport) : Except String LlmResponse :=
  runWithProvider ((getModelProvider modelId availableModels).getD .openai)
    apiKey userPrompt systemPrompt tr

/-- The resolved provider transport failed: a thrown exception, or for the fetch
providers a non-2xx response. -/
def transportFails (p : Provider) (tr : Transport) : Prop :=
  match p with
  | .gemini => ∃ m, tr.gemini = .exn m
  | .openai => (∃ em, tr.openai = .httpError em) ∨ (∃ m, tr.openai = .exn m)
  | .anthropic => (∃ em, tr.anthropic = .httpError em) ∨ (∃ m, tr.anthropic = .exn m)

/-- The result is a thrown, normalized API-layer error: never an ordinary value, and
the message either carries the generic API failure text as a literal prefix or is the
fixed unknown-error message naming the provider. -/
def normalizedFailure (p : Provider) (r : Except String LlmResponse) : Prop :=
  match r with
  | .ok _ => False
  | .error msg =>
    (∃ k, msg = "An error occurred: " ++ k) ∨
    msg = "An unknown error occurred while contacting the " ++ providerName p ++ " API."

/-- One raw row of the OpenAI models listing. -/
structure RawModel where
  id : String
  owned_by : String
deriving DecidableEq

/-- What the models-endpoint fetch does. -/
inductive FetchOutcome where
  | exn : FetchOutcome
  | resp (ok : Bool) (data : List RawModel) : FetchOutcome
deriving DecidableEq

/-- JS split on a single separator character. -/
def splitOnChar (sep : Char) : List Char → List (List Char)
  | [] => [[]]
  | c :: cs =>
    let r := splitOnChar sep cs
    if c = sep then [] :: r
    else
      match r with
      | h :: t => (c :: h) :: t
      | [] => [[c]]

/-- Capitalize the first character of a word, as charAt zero toUpperCase plus slice one. -/
def capWord : List Char → List Char
  | [] => []
  | c :: cs => c.toUpper :: cs

/-- Join word lists with single spaces. -/
def joinSpace : List (List Char) → List Char
  | [] => []
  | [w] => w
  | w :: ws => w ++ ' ' :: joinSpace ws

/-- JS String.prototype.replace with a plain string pattern: replace the first
occurrence only. -/
def replaceFirst (pat rep : List Char) : List Char → List Char
  | [] => if pat = [] then rep else []
  | c :: cs =>
    if pat.isPrefixOf (c :: cs) then rep ++ (c :: cs).drop pat.length
    else c :: replaceFirst pat rep cs

/-- prettyModelName of llmService: title-case the hyphen-separated tokens of the id,
join with spaces, and upper-case the first occurrence of the title-cased vendor
acronym. -/
def prettyModelName (id : String) : String :=
  String.mk (replaceFirst (['G','p','t']) (['G','P','T'])
    (joinSpace ((splitOnChar ('-') id.data).map capWord)))

/-- JS String.prototype.includes, substring containment. -/
def listIncludes (sub : List Char) : List Char → Bool
  | [] => sub.isEmpty
  | c :: t => sub.isPrefixOf (c :: t) || listIncludes sub t

/-- The filter of fetchOpenAIModels: chat-model id shape and vendor ownership. -/
def isChatModelRow (m : RawModel) : Bool :=
  (['g','p','t','-'].isPrefixOf m.id.data) && listIncludes (['o','p','e','n','a','i']) m.owned_by.data

/-- The ModelDefinition a kept row is mapped to. -/
def mkOpenAIModel (m : RawModel) : ModelDefinition :=
  { id := m.id, name := prettyModelName m.id, provider := .openai }

/-- Total lexicographic order on character lists by code point, the model of the
locale compare on the plain ASCII model ids. -/
def lexLe : List Char → List Char → Bool
  | [], _ => true
  | _ :: _, [] => false
  | c :: cs, d :: ds =>
    if c.toNat < d.toNat then true
    else if d.toNat < c.toNat then false
    else lexLe cs ds

/-- The descending comparator of fetchOpenAIModels as a relation. -/
def descById (a b : ModelDefinition) : Prop :=
  lexLe b.id.data a.id.data = true

instance : DecidableRel descById := fun a b => by
  unfold descById
  infer_instance

/-- fetchOpenAIModels of llmService: empty list for a missing key, a thrown fetch or
a non-2xx response; otherwise keep the chat rows owned by the vendor, map them to
display models and sort descending by id. -/
def fetchOpenAIModels (apiKey : String) (outcome : FetchOutcome) : List ModelDefinition :=
  if apiKey = "" then []
  else
    match outcome with
    | .exn => []
    | .resp false _ => []
    | .resp true data =>
      List.insertionSort descById ((data.filter isChatModelRow).map mkOpenAIModel)

/-- Membership contract between a fetched model list and the raw rows: every returned
model comes from a kept row, and every kept row appears. -/
def modelsMatchData (res : List ModelDefinition) (data : List RawModel) : Prop :=
  (∀ m ∈ res, ∃ raw ∈ data, isChatModelRow raw = true ∧ m = mkOpenAIModel raw) ∧
  (∀ raw ∈ data, isChatModelRow raw = true → mkOpenAIModel raw ∈ res)

/-- A picked element is a member attaining the maximal version. -/
def isMaxVersionIn (p : PromptV) (l : List PromptV) : Prop :=
  p ∈ l ∧ ∀ q ∈ l, q.version ≤ p.version

/-- A version number one above the maximum of a lineage. -/
def versionIsSuccOfMax (v : Nat) (l : List PromptV) : Prop :=
  (∀ q ∈ l, q.version < v) ∧ (∃ q ∈ l, v = q.version + 1)

/-- Every extracted name is a nonempty word-character run. -/
def allWordNames (l : List (List Char)) : Prop :=
  ∀ n ∈ l, n ≠ [] ∧ n.all isWordChar = true

/-- The reselection outcome for a nonempty surviving lineage: the selection moved to
the member picked as the stable-sort head, and that member attains the maximal
version. -/
def latestSelected (l : List PromptV) (sel : Option String) : Prop :=
  match l with
  | [] => True
  | p :: ps => sel = some (pickLatest p ps).id ∧ isMaxVersionIn (pickLatest p ps) (p :: ps)

/-- A concrete prompt record used by the witnesses. -/
def mkPrompt (i b : String) (ver : Nat) : PromptV :=
  { id := i, baseId := b, folderId := none, title := "T", description := "D",
    systemPrompt := "S", userPrompt := "U", tags := [], version := ver,
    createdAt := "t0", updatedAt := "t0" }

/-- A one-prompt state used by the witnesses. -/
def sampleState1 : AppState :=
  { prompts := [mkPrompt ("p1") ("p1") 1], selectedId := some ("p1") }

/-- A three-version lineage at versions one, two and four. -/
def sampleState124 : AppState :=
  { prompts := [mkPrompt ("x1") ("X") 1, mkPrompt ("x2") ("X") 2, mkPrompt ("x4") ("X") 4],
    selectedId := some ("x2") }

/-- A two-version lineage with the first version selected. -/
def sampleState2 : AppState :=
  { prompts := [mkPrompt ("x1") ("X") 1, mkPrompt ("x2") ("X") 2], selectedId := some ("x1") }

/-- A state holding an empty-id record next to a selected one-version lineage. -/
def sampleStateEmptyId : AppState :=
  { prompts := [mkPrompt ("") ("A") 1, mkPrompt ("x") ("B") 1], selectedId := some ("x") }

/-- A transport whose OpenAI call fails with a non-2xx body. -/
def sampleTransport : Transport :=
  { gemini := .ok ("resp!"), openai := .httpError (some ("bad key")), anthropic := .exn none }

/-- Raw model rows used by the fetch witness. -/
def sampleRawModels : List RawModel :=
  [ { id := "gpt-4o", owned_by := "openai" },
    { id := "o1", owned_by := "openai" },
    { id := "gpt-3.5-turbo", owned_by := "openai-internal" },
    { id := "davinci", owned_by := "openai" } ]

theorem word_not_ws {c : Char} (h : isWordChar c = true) : isJsWs c = false := by
  simp only [isWordChar, Bool.or_eq_true, Bool.and_eq_true, decide_eq_true_eq, beq_iff_eq] at h
  simp only [isJsWs, Bool.or_eq_true, Bool.and_eq_true, decide_eq_true_eq, beq_iff_eq,
    Bool.or_eq_false_iff, Bool.and_eq_false_iff, decide_eq_false_iff_not, beq_eq_false_iff_ne,
    ne_eq]
  omega

theorem word_ne_lbrace {c : Char} (h : isWordChar c = true) : c ≠ '{' := by
  intro hc
  subst hc
  exact absurd h (by decide)

theorem word_ne_rbrace {c : Char} (h : isWordChar c = true) : c ≠ '}' := by
  intro hc
  subst hc
  exact absurd h (by decide)

theorem ws_ne_lbrace {c : Char} (h : isJsWs c = true) : c ≠ '{' := by
  intro hc
  subst hc
  exact absurd h (by decide)

theorem ws_ne_rbrace {c : Char} (h : isJsWs c = true) : c ≠ '}' := by
  intro hc
  subst hc
  exact absurd h (by decide)

theorem ws_not_word {c : Char} (h : isJsWs c = true) : isWordChar c = false := by
  cases hw : isWordChar c
  · rfl
  · rw [word_not_ws hw] at h
    cases h

/-! Helper lemmas: takeWhile, dropWhile, stripName. -/

theorem dropWhile_append_all {p : Char → Bool} {a : List Char} (b : List Char)
    (h : ∀ x ∈ a, p x = true) : (a ++ b).dropWhile p = b.dropWhile p := by
  induction a with
  | nil => rfl
  | cons c cs ih =>
    simp only [List.cons_append, List.dropWhile_cons, h c (by simp), if_true]
    exact ih (fun x hx => h x (by simp [hx]))

theorem takeWhile_append_all {p : Char → Bool} {a : List Char} (b : List Char)
    (h : ∀ x ∈ a, p x = true) : (a ++ b).takeWhile p = a ++ b.takeWhile p := by
  induction a with
  | nil => rfl
  | cons c cs ih =>
    simp only [List.cons_append, List.takeWhile_cons, h c (by simp), if_true]
    rw [ih (fun x hx => h x (by simp [hx]))]

theorem dropWhile_word_all {l : List Char} (hne : l ≠ []) (h : ∀ x ∈ l, isWordChar x = true) :
    l.dropWhile isJsWs = l := by
  cases l with
  | nil => exact absurd rfl hne
  | cons c cs =>
    simp only [List.dropWhile_cons, word_not_ws (h c (by simp)), if_neg]
    simp

theorem stripName_eq_append {k s r : List Char} (h : stripName k s = some r) : s = k ++ r := by
  induction k generalizing s with
  | nil =>
    simp only [stripName, Option.some.injEq] at h
    simp [h]
  | cons n ns ih =>
    cases s with
    | nil => cases h
    | cons c cs =>
      simp only [stripName] at h
      by_cases hc : c = n
      · rw [if_pos hc] at h
        subst hc
        simp [ih h]
      · rw [if_neg hc] at h
        cases h

theorem stripName_append_self (k r : List Char) : stripName k (k ++ r) = some r := by
  induction k with
  | nil => rfl
  | cons n ns ih => simp [stripName, ih]

/-! Helper lemmas: decomposition of the two matchers. -/

theorem matchVar_nil (k : List Char) : matchVar k [] = none := rfl

theorem matchVar_single (k : List Char) (c : Char) : matchVar k [c] = none := rfl

theorem matchVar_head_ne {c : Char} (k s : List Char) (h : c ≠ '{') :
    matchVar k (c :: s) = none := by
  cases s with
  | nil => rfl
  | cons d t => simp [matchVar, h]

theorem matchVar_second_ne {d : Char} (k : List Char) (c : Char) (s : List Char) (h : d ≠ '{') :
    matchVar k (c :: d :: s) = none := by
  by_cases hc : c = '{' <;> simp [matchVar, hc, h]

theorem matchVar_decomp {k s rest : List Char} (h : matchVar k s = some rest) :
    ∃ w1 w2, s = '{' :: '{' :: (w1 ++ k ++ w2 ++ '}' :: '}' :: rest) ∧
      (∀ x ∈ w1, isJsWs x = true) ∧ (∀ x ∈ w2, isJsWs x = true) := by
  match s with
  | [] => cases h
  | [c] => cases h
  | c1 :: c2 :: r =>
    simp only [matchVar] at h
    by_cases h1 : c1 = '{'
    · rw [if_pos h1] at h
      by_cases h2 : c2 = '{'
      · rw [if_pos h2] at h
        subst h1
        subst h2
        cases hs : stripName k (r.dropWhile isJsWs) with
        | none => rw [hs] at h; cases h
        | some r2 =>
          simp only [hs] at h
          have hr : r.dropWhile isJsWs = k ++ r2 := stripName_eq_append hs
          cases hd : r2.dropWhile isJsWs with
          | nil => simp only [hd] at h; cases h
          | cons d1 r3 =>
            cases r3 with
            | nil => simp only [hd] at h; cases h
            | cons d2 rest2 =>
              simp only [hd] at h
              by_cases hd1 : d1 = '}'
              · rw [if_pos hd1] at h
                by_cases hd2 : d2 = '}'
                · rw [if_pos hd2] at h
                  have hrest : rest2 = rest := by
                    injection h
                  subst hd1
                  subst hd2
                  subst hrest
                  obtain ⟨w1, hw1⟩ : ∃ w, w = r.takeWhile isJsWs := ⟨_, rfl⟩
                  obtain ⟨w2, hw2⟩ : ∃ w, w = r2.takeWhile isJsWs := ⟨_, rfl⟩
                  have hw1m : ∀ x ∈ w1, isJsWs x = true := by
                    rw [hw1]
                    exact fun x hx => List.mem_takeWhile_imp hx
                  have hw2m : ∀ x ∈ w2, isJsWs x = true := by
                    rw [hw2]
                    exact fun x hx => List.mem_takeWhile_imp hx
                  have e2 : w2 ++ ('}' :: '}' :: rest2) = r2 := by
                    rw [hw2, ← hd]
                    exact List.takeWhile_append_dropWhile isJsWs r2
                  have e1 : w1 ++ (k ++ r2) = r := by
                    rw [hw1, ← hr]
                    exact List.takeWhile_append_dropWhile isJsWs r
                  refine ⟨w1, w2, ?_, hw1m, hw2m⟩
                  rw [← e1, ← e2]
                  simp [List.append_assoc]
                · rw [if_neg hd2] at h; cases h
              · rw [if_neg hd1] at h; cases h
      · rw [if_neg h2] at h; cases h
    · rw [if_neg h1] at h; cases h

theorem dropWhile_ws_word_head {k : List Char} (X : List Char) (hk1 : k ≠ [])
    (hk2 : ∀ x ∈ k, isWordChar x = true) : (k ++ X).dropWhile isJsWs = k ++ X := by
  cases k with
  | nil => exact absurd rfl hk1
  | cons c cs =>
    simp only [List.cons_append, List.dropWhile_cons, word_not_ws (hk2 c (by simp))]
    simp

theorem takeWhile_word_after_ws {w2 : List Char} (Y : List Char)
    (hw2 : ∀ x ∈ w2, isJsWs x = true) :
    (w2 ++ '}' :: Y).takeWhile isWordChar = [] := by
  cases w2 with
  | nil => simp [List.takeWhile_cons, show isWordChar '}' = false from by decide]
  | cons e es =>
    simp only [List.cons_append, List.takeWhile_cons, ws_not_word (hw2 e (by simp))]
    simp

theorem dropWhile_word_after_ws {w2 : List Char} (Y : List Char)
    (hw2 : ∀ x ∈ w2, isJsWs x = true) :
    (w2 ++ '}' :: Y).dropWhile isWordChar = w2 ++ '}' :: Y := by
  cases w2 with
  | nil => simp [List.dropWhile_cons, show isWordChar '}' = false from by decide]
  | cons e es =>
    simp only [List.cons_append, List.dropWhile_cons, ws_not_word (hw2 e (by simp))]
    simp

theorem takeWhile_ws_after_word {w2 : List Char} (Y : List Char)
    (hw2 : ∀ x ∈ w2, isJsWs x = true) :
    (w2 ++ '}' :: Y).takeWhile isJsWs = w2 := by
  rw [takeWhile_append_all ('}' :: Y) hw2]
  simp [List.takeWhile_cons, show isJsWs '}' = false from by decide]

theorem dropWhile_ws_after_word {w2 : List Char} (Y : List Char)
    (hw2 : ∀ x ∈ w2, isJsWs x = true) :
    (w2 ++ '}' :: Y).dropWhile isJsWs = '}' :: Y := by
  rw [dropWhile_append_all ('}' :: Y) hw2]
  simp [List.dropWhile_cons, show isJsWs '}' = false from by decide]

theorem token_of_matchVar {k s rest : List Char} (hk1 : k ≠ [])
    (hk2 : ∀ x ∈ k, isWordChar x = true) (h : matchVar k s = some rest) :
    ∃ tok, matchVarToken s = some (tok, k, rest) := by
  obtain ⟨w1, w2, hseq, hw1, hw2⟩ := matchVar_decomp h
  subst hseq
  have hr1 : ((w1 ++ k ++ w2 ++ '}' :: '}' :: rest).dropWhile isJsWs)
      = k ++ (w2 ++ '}' :: '}' :: rest) := by
    have : w1 ++ k ++ w2 ++ '}' :: '}' :: rest = w1 ++ (k ++ (w2 ++ '}' :: '}' :: rest)) := by
      simp [List.append_assoc]
    rw [this, dropWhile_append_all _ hw1, dropWhile_ws_word_head _ hk1 hk2]
  have hname : (k ++ (w2 ++ '}' :: '}' :: rest)).takeWhile isWordChar = k := by
    rw [takeWhile_append_all _ hk2, takeWhile_word_after_ws _ hw2, List.append_nil]
  have hr2 : (k ++ (w2 ++ '}' :: '}' :: rest)).dropWhile isWordChar = w2 ++ '}' :: '}' :: rest := by
    rw [dropWhile_append_all _ hk2, dropWhile_word_after_ws _ hw2]
  have hw2t : (w2 ++ '}' :: '}' :: rest).takeWhile isJsWs = w2 := takeWhile_ws_after_word _ hw2
  have hw2d : (w2 ++ '}' :: '}' :: rest).dropWhile isJsWs = '}' :: '}' :: rest :=
    dropWhile_ws_after_word _ hw2
  refine ⟨'{' :: '{' :: ((w1 ++ k ++ w2 ++ '}' :: '}' :: rest).takeWhile isJsWs ++ k ++ w2 ++ ['}', '}']), ?_⟩
  simp only [matchVarToken, if_pos rfl]
  rw [hr1, hname, hr2, hw2t, hw2d]
  rw [if_neg hk1]
  simp

theorem matchVarToken_decomp {s tok name rest : List Char}
    (h : matchVarToken s = some (tok, name, rest)) :
    ∃ w1 w2, tok = '{' :: '{' :: (w1 ++ name ++ w2 ++ ['}', '}']) ∧ s = tok ++ rest ∧
      (∀ x ∈ w1, isJsWs x = true) ∧ (∀ x ∈ w2, isJsWs x = true) ∧
      name ≠ [] ∧ (∀ x ∈ name, isWordChar x = true) := by
  match s with
  | [] => cases h
  | [c] => cases h
  | c1 :: c2 :: r =>
    simp only [matchVarToken] at h
    by_cases h1 : c1 = '{'
    · rw [if_pos h1] at h
      by_cases h2 : c2 = '{'
      · rw [if_pos h2] at h
        subst h1
        subst h2
        by_cases hname : ((r.dropWhile isJsWs).takeWhile isWordChar) = []
        · rw [if_pos hname] at h
          cases h
        · rw [if_neg hname] at h
          cases hd : ((r.dropWhile isJsWs).dropWhile isWordChar).dropWhile isJsWs with
          | nil => simp only [hd] at h; cases h
          | cons d1 r3 =>
            cases r3 with
            | nil => simp only [hd] at h; cases h
            | cons d2 rest2 =>
              simp only [hd] at h
              by_cases hd1 : d1 = '}'
              · rw [if_pos hd1] at h
                by_cases hd2 : d2 = '}'
                · rw [if_pos hd2] at h
                  rw [Option.some.injEq, Prod.mk.injEq, Prod.mk.injEq] at h
                  obtain ⟨ha, hb, hc⟩ := h
                  subst hd1
                  subst hd2
                  rw [hc] at hd
                  obtain ⟨w1, hw1⟩ : ∃ w, w = r.takeWhile isJsWs := ⟨_, rfl⟩
                  obtain ⟨nm, hnm2⟩ : ∃ w, w = (r.dropWhile isJsWs).takeWhile isWordChar := ⟨_, rfl⟩
                  obtain ⟨w2, hw2⟩ : ∃ w, w = ((r.dropWhile isJsWs).dropWhile isWordChar).takeWhile isJsWs := ⟨_, rfl⟩
                  rw [← hw1, ← hnm2, ← hw2] at ha
                  rw [← hnm2] at hb
                  rw [← hnm2] at hname
                  subst hb
                  refine ⟨w1, w2, ha.symm, ?_, ?_, ?_, hname, ?_⟩
                  · rw [← ha]
                    have e3 : w2 ++ ('}' :: '}' :: rest) = (r.dropWhile isJsWs).dropWhile isWordChar := by
                      rw [hw2, ← hd]
                      exact List.takeWhile_append_dropWhile isJsWs _
                    have e2 : nm ++ (w2 ++ ('}' :: '}' :: rest)) = r.dropWhile isJsWs := by
                      rw [e3, hnm2]
                      exact List.takeWhile_append_dropWhile isWordChar _
                    have e1 : w1 ++ (nm ++ (w2 ++ ('}' :: '}' :: rest))) = r := by
                      rw [e2, hw1]
                      exact List.takeWhile_append_dropWhile isJsWs _
                    rw [← e1]
                    simp [List.append_assoc]
                  · rw [hw1]
                    exact fun x hx => List.mem_takeWhile_imp hx
                  · rw [hw2]
                    exact fun x hx => List.mem_takeWhile_imp hx
                  · rw [hnm2]
                    exact fun x hx => List.mem_takeWhile_imp hx
                · rw [if_neg hd2] at h; cases h
              · rw [if_neg hd1] at h; cases h
      · rw [if_neg h2] at h; cases h
    · rw [if_neg h1] at h; cases h

theorem matchVar_of_token {s tok name rest : List Char}
    (h : matchVarToken s = some (tok, name, rest)) : matchVar name s = some rest := by
  obtain ⟨w1, w2, htok, hseq, hw1, hw2, hn1, hn2⟩ := matchVarToken_decomp h
  subst htok
  subst hseq
  have hshape : '{' :: '{' :: (w1 ++ name ++ w2 ++ ['}', '}']) ++ rest
      = '{' :: '{' :: (w1 ++ (name ++ (w2 ++ '}' :: '}' :: rest))) := by
    simp [List.append_assoc]
  rw [hshape]
  have hdw : (w1 ++ (name ++ (w2 ++ '}' :: '}' :: rest))).dropWhile isJsWs
      = name ++ (w2 ++ '}' :: '}' :: rest) := by
    rw [dropWhile_append_all _ hw1]
    exact dropWhile_ws_word_head _ hn1 hn2
  simp only [matchVar, hdw, stripName_append_self, dropWhile_ws_after_word _ hw2]
  simp

theorem matchVar_none_of_token_ne {k s tok name rest : List Char} (hk1 : k ≠ [])
    (hk2 : ∀ x ∈ k, isWordChar x = true) (h : matchVarToken s = some (tok, name, rest))
    (hne : name ≠ k) : matchVar k s = none := by
  cases hm : matchVar k s with
  | none => rfl
  | some rest2 =>
    obtain ⟨tok2, htok2⟩ := token_of_matchVar hk1 hk2 hm
    rw [h] at htok2
    injection htok2 with hx
    injection hx with hx1 hx2
    injection hx2 with hx2 hx3
    exact absurd hx2 hne

theorem matchVar_none_of_token_none {k s : List Char} (hk1 : k ≠ [])
    (hk2 : ∀ x ∈ k, isWordChar x = true) (h : matchVarToken s = none) : matchVar k s = none := by
  cases hm : matchVar k s with
  | none => rfl
  | some rest2 =>
    obtain ⟨tok2, htok2⟩ := token_of_matchVar hk1 hk2 hm
    rw [h] at htok2
    cases htok2

theorem getSubstitution_no_dollar {v : List Char} (m b a : List Char) (h : '$' ∉ v) :
    getSubstitution m b a v = v := by
  induction v with
  | nil => rfl
  | cons c rest ih =>
    have hc : c ≠ '$' := fun hc => h (by simp [hc])
    rw [getSubstitution.eq_def]
    simp only [if_neg hc]
    rw [ih (fun hr => h (by simp [hr]))]

theorem replaceGo_skip (k v a : List Char) :
    ∀ (r pre : List Char), replaceGo k v (a ++ r) a.length pre = replaceGo k v r 0 (pre ++ a) := by
  induction a with
  | nil =>
    intro r pre
    simp
  | cons c a2 ih =>
    intro r pre
    rw [List.cons_append]
    rw [show replaceGo k v (c :: (a2 ++ r)) (c :: a2).length pre
        = replaceGo k v (a2 ++ r) a2.length (pre ++ [c]) from rfl]
    rw [ih r (pre ++ [c])]
    simp [List.append_assoc]

theorem replaceGo_nomatch {k : List Char} {c : Char} {cs : List Char} (v pre : List Char)
    (h : matchVar k (c :: cs) = none) :
    replaceGo k v (c :: cs) 0 pre = c :: replaceGo k v cs 0 (pre ++ [c]) := by
  simp [replaceGo, h]

theorem replaceGo_walk (k v : List Char) :
    ∀ (a r pre : List Char), (∀ x ∈ a, x ≠ '{') →
      replaceGo k v (a ++ r) 0 pre = a ++ replaceGo k v r 0 (pre ++ a)
  | [], r, pre, _ => by simp
  | c :: a2, r, pre, h => by
    rw [List.cons_append,
      replaceGo_nomatch v pre (matchVar_head_ne k (a2 ++ r) (h c (by simp))),
      replaceGo_walk k v a2 r (pre ++ [c]) (fun x hx => h x (by simp [hx]))]
    simp [List.append_assoc]

theorem replaceGo_match {k s rest tok : List Char} (v pre : List Char)
    (h : matchVar k s = some rest) (hdecomp : s = tok ++ rest) (htok : tok ≠ []) :
    replaceGo k v s 0 pre = getSubstitution tok pre rest v ++ replaceGo k v rest 0 (pre ++ tok) := by
  subst hdecomp
  cases tok with
  | nil => exact absurd rfl htok
  | cons c tokTail =>
    have hlen : ((c :: tokTail) ++ rest).length - rest.length = tokTail.length + 1 := by
      simp only [List.length_append, List.length_cons]
      omega
    have htake : List.take ((tokTail ++ rest).length + 1 - rest.length) (c :: (tokTail ++ rest))
        = c :: tokTail := by
      have hlen2 : (tokTail ++ rest).length + 1 - rest.length = tokTail.length + 1 := by
        simp only [List.length_append]
        omega
      rw [hlen2]
      exact List.take_left (c :: tokTail) rest
    rw [List.cons_append] at h ⊢
    simp only [replaceGo, h, htake, List.length_cons, Nat.add_sub_cancel, List.append_eq]
    rw [replaceGo_skip k v tokTail rest (pre ++ [c])]
    simp [List.append_assoc]

theorem specGo_skip (B : List (List Char × List Char)) :
    ∀ (a r : List Char), specGo B (a ++ r) a.length = specGo B r 0
  | [], r => by simp
  | c :: a2, r => by
    simp only [List.cons_append, List.length_cons, specGo]
    exact specGo_skip B a2 r

theorem specGo_nomatch {c : Char} {cs : List Char} (B : List (List Char × List Char))
    (h : matchVarToken (c :: cs) = none) : specGo B (c :: cs) 0 = c :: specGo B cs 0 := by
  simp [specGo, h]

theorem specGo_match {s tok name rest : List Char} (B : List (List Char × List Char))
    (h : matchVarToken s = some (tok, name, rest)) :
    specGo B s 0 = (match lookupB B name with
      | some v => v
      | none => tok) ++ specGo B rest 0 := by
  obtain ⟨w1, w2, htok, hseq, _, _, _, _⟩ := matchVarToken_decomp h
  subst hseq
  rw [htok] at h ⊢
  rw [List.cons_append] at h ⊢
  simp only [specGo, h]
  rw [List.append_eq]
  rw [specGo_skip B (w1 ++ name ++ w2 ++ ['}', '}']) rest]

theorem scanGo_names : ∀ (s : List Char) (skip : Nat) (n : List Char), n ∈ scanGo s skip →
    n ≠ [] ∧ n.all isWordChar = true
  | [], _, n, hn => by cases hn
  | c :: cs, skip + 1, n, hn => scanGo_names cs skip n hn
  | c :: cs, 0, n, hn => by
    revert hn
    cases hm : matchVarToken (c :: cs) with
    | none =>
      intro hn
      simp only [scanGo, hm] at hn
      exact scanGo_names cs 0 n hn
    | some triple =>
      obtain ⟨tok, name, rest⟩ := triple
      intro hn
      simp only [scanGo, hm, List.mem_cons] at hn
      rcases hn with hn | hn
      · obtain ⟨_, _, _, _, _, _, hne, hword⟩ := matchVarToken_decomp hm
        subst hn
        exact ⟨hne, List.all_eq_true.mpr hword⟩
      · exact scanGo_names cs (tok.length - 1) n hn

theorem dedupFirst_sub : ∀ (l seen : List (List Char)) (n : List Char),
    n ∈ dedupFirst l seen → n ∈ l
  | [], _, n, hn => by cases hn
  | m :: ms, seen, n, hn => by
    simp only [dedupFirst] at hn
    by_cases hm : m ∈ seen
    · rw [if_pos hm] at hn
      exact List.mem_cons_of_mem m (dedupFirst_sub ms seen n hn)
    · rw [if_neg hm] at hn
      rcases List.mem_cons.mp hn with hn | hn
      · simp [hn]
      · exact List.mem_cons_of_mem m (dedupFirst_sub ms (m :: seen) n hn)

theorem append_double_eq {c : Char} : ∀ {xs u v v2 : List Char},
    xs ++ c :: c :: v = u ++ c :: c :: v2 → c ∉ xs → c ∉ u → xs = u ∧ v = v2
  | [], u, v, v2, h, hxs, hu => by
    cases u with
    | nil =>
      simp only [List.nil_append] at h
      injection h with _ h2
      injection h2 with _ h3
      exact ⟨rfl, h3⟩
    | cons d u2 =>
      simp only [List.nil_append, List.cons_append] at h
      injection h with hd _
      cases hd
      exact absurd (List.mem_cons_self c u2) hu
  | x :: xs2, u, v, v2, h, hxs, hu => by
    cases u with
    | nil =>
      simp only [List.cons_append, List.nil_append] at h
      injection h with hd _
      cases hd
      exact absurd (List.mem_cons_self c xs2) hxs
    | cons y u2 =>
      simp only [List.cons_append] at h
      injection h with hd ht
      subst hd
      have hres := append_double_eq ht (fun hm => hxs (List.mem_cons_of_mem _ hm))
        (fun hm => hu (List.mem_cons_of_mem _ hm))
      exact ⟨by rw [hres.1], hres.2⟩

theorem trimWs_sandwich {a k b : List Char} (ha : ∀ x ∈ a, isJsWs x = true)
    (hb : ∀ x ∈ b, isJsWs x = true) (hk1 : k ≠ []) (hk2 : ∀ x ∈ k, isWordChar x = true) :
    trimWs (a ++ k ++ b) = k := by
  unfold trimWs
  have h1 : (a ++ k ++ b).dropWhile isJsWs = k ++ b := by
    rw [List.append_assoc, dropWhile_append_all _ ha, dropWhile_ws_word_head _ hk1 hk2]
  rw [h1, List.reverse_append]
  rw [dropWhile_append_all _ (fun x hx => hb x (by simpa using hx))]
  rw [dropWhile_word_all (by simpa using hk1) (fun x hx => hk2 x (by simpa using hx))]
  exact List.reverse_reverse k

theorem matchVar_malformed_none {k inner b : List Char} (hk1 : k ≠ [])
    (hk2 : ∀ x ∈ k, isWordChar x = true)
    (hbrace : ∀ x ∈ inner, x ≠ '{' ∧ x ≠ '}')
    (hbad : ∃ x ∈ trimWs inner, isWordChar x = false) :
    matchVar k ('{' :: '{' :: (inner ++ '}' :: '}' :: b)) = none := by
  cases hm : matchVar k ('{' :: '{' :: (inner ++ '}' :: '}' :: b)) with
  | none => rfl
  | some rest =>
    obtain ⟨w1, w2, hseq, hw1, hw2⟩ := matchVar_decomp hm
    injection hseq with _ hseq
    injection hseq with _ hseq
    have hre : inner ++ '}' :: '}' :: b = (w1 ++ k ++ w2) ++ '}' :: '}' :: rest := by
      simp only [hseq, List.append_assoc]
    have hnotin1 : '}' ∉ inner := fun hm2 => (hbrace _ hm2).2 rfl
    have hnotin2 : '}' ∉ w1 ++ k ++ w2 := by
      intro hm2
      rcases List.mem_append.mp hm2 with hm3 | hm3
      · rcases List.mem_append.mp hm3 with hm4 | hm4
        · exact ws_ne_rbrace (hw1 _ hm4) rfl
        · exact word_ne_rbrace (hk2 _ hm4) rfl
      · exact ws_ne_rbrace (hw2 _ hm3) rfl
    obtain ⟨hinner, _⟩ := append_double_eq hre hnotin1 hnotin2
    obtain ⟨x, hx, hxw⟩ := hbad
    rw [hinner, trimWs_sandwich hw1 hw2 hk1 hk2] at hx
    rw [hk2 x hx] at hxw
    cases hxw

theorem replaceVar_malformed_id {k v inner : List Char} (hk1 : k ≠ [])
    (hk2 : ∀ x ∈ k, isWordChar x = true)
    (hbrace : ∀ x ∈ inner, x ≠ '{' ∧ x ≠ '}')
    (hbad : ∃ x ∈ trimWs inner, isWordChar x = false) :
    replaceVar k v ('{' :: '{' :: (inner ++ ['}', '}'])) = '{' :: '{' :: (inner ++ ['}', '}']) := by
  unfold replaceVar
  rw [replaceGo_nomatch v [] (matchVar_malformed_none hk1 hk2 hbrace hbad)]
  have hm2 : matchVar k ('{' :: (inner ++ ['}', '}'])) = none := by
    cases inner with
    | nil => exact matchVar_second_ne k '{' _ (by decide)
    | cons i0 it =>
      rw [List.cons_append]
      exact matchVar_second_ne k '{' _ (hbrace i0 (by simp)).1
  rw [replaceGo_nomatch v _ hm2]
  have hwalk := replaceGo_walk k v (inner ++ ['}', '}']) [] ([] ++ ['{'] ++ ['{'])
    (by
      intro x hx
      rcases List.mem_append.mp hx with hx | hx
      · exact (hbrace x hx).1
      · simp only [List.mem_cons, List.mem_singleton] at hx
        rcases hx with hx | hx | hx
        · subst hx; decide
        · subst hx; decide
        · cases hx)
  rw [List.append_nil] at hwalk
  rw [hwalk]
  simp [replaceGo]

theorem substituteVars_malformed_id {inner : List Char}
    (B : List (List Char × List Char))
    (hB : ∀ kv ∈ B, kv.1 ≠ [] ∧ (∀ x ∈ kv.1, isWordChar x = true))
    (hbrace : ∀ x ∈ inner, x ≠ '{' ∧ x ≠ '}')
    (hbad : ∃ x ∈ trimWs inner, isWordChar x = false) :
    substituteVars B ('{' :: '{' :: (inner ++ ['}', '}'])) = '{' :: '{' :: (inner ++ ['}', '}']) := by
  unfold substituteVars
  induction B with
  | nil => rfl
  | cons kv Bs ih =>
    rw [List.foldl_cons]
    rw [replaceVar_malformed_id (hB kv (by simp)).1 (hB kv (by simp)).2 hbrace hbad]
    exact ih (fun kv2 hkv2 => hB kv2 (by simp [hkv2]))

theorem exists_head_ne_lbrace {w1 name : List Char} (Z : List Char)
    (hw1 : ∀ x ∈ w1, isJsWs x = true) (hn1 : name ≠ [])
    (hn2 : ∀ x ∈ name, isWordChar x = true) :
    ∃ m0 X, w1 ++ (name ++ Z) = m0 :: X ∧ m0 ≠ '{' := by
  cases w1 with
  | nil =>
    cases name with
    | nil => exact absurd rfl hn1
    | cons n0 nt =>
      exact ⟨n0, nt ++ Z, by simp, word_ne_lbrace (hn2 n0 (by simp))⟩
  | cons c ct =>
    exact ⟨c, ct ++ (name ++ Z), by simp, ws_ne_lbrace (hw1 c (by simp))⟩

theorem replaceGo_token_head {k inner : List Char} (hk1 : k ≠ [])
    (hk2 : ∀ x ∈ k, isWordChar x = true)
    (hbrace : ∀ x ∈ inner, x ≠ '{' ∧ x ≠ '}')
    (hbad : ∃ x ∈ trimWs inner, isWordChar x = false) (v b pre : List Char) :
    replaceGo k v ('{' :: '{' :: (inner ++ '}' :: '}' :: b)) 0 pre
      = ('{' :: '{' :: (inner ++ ['}', '}']))
        ++ replaceGo k v b 0 (pre ++ ('{' :: '{' :: (inner ++ ['}', '}']))) := by
  rw [replaceGo_nomatch v pre (matchVar_malformed_none hk1 hk2 hbrace hbad)]
  have hm2 : matchVar k ('{' :: (inner ++ '}' :: '}' :: b)) = none := by
    cases inner with
    | nil => exact matchVar_second_ne k '{' _ (by decide)
    | cons i0 it =>
      rw [List.cons_append]
      exact matchVar_second_ne k '{' _ (hbrace i0 (by simp)).1
  rw [replaceGo_nomatch v _ hm2]
  have hshape : inner ++ '}' :: '}' :: b = (inner ++ ['}', '}']) ++ b := by
    simp [List.append_assoc]
  rw [hshape]
  rw [replaceGo_walk k v (inner ++ ['}', '}']) b ((pre ++ ['{']) ++ ['{'])
    (by
      intro x hx
      rcases List.mem_append.mp hx with hx | hx
      · exact (hbrace x hx).1
      · simp only [List.mem_cons, List.mem_singleton] at hx
        rcases hx with hx | hx | hx
        · subst hx; decide
        · subst hx; decide
        · cases hx)]
  simp [List.append_assoc]

theorem matchVar_context_split {k inner b a rest : List Char} (hk1 : k ≠ [])
    (hk2 : ∀ x ∈ k, isWordChar x = true)
    (hbrace : ∀ x ∈ inner, x ≠ '{' ∧ x ≠ '}')
    (hbad : ∃ x ∈ trimWs inner, isWordChar x = false)
    (hm : matchVar k (a ++ ('{' :: '{' :: (inner ++ '}' :: '}' :: b))) = some rest) :
    ∃ M a3, a = M ++ a3 ∧ M ≠ [] ∧
      rest = a3 ++ ('{' :: '{' :: (inner ++ '}' :: '}' :: b)) := by
  obtain ⟨w1, w2, hseq, hw1, hw2⟩ := matchVar_decomp hm
  have hseq2 : a ++ ('{' :: '{' :: (inner ++ '}' :: '}' :: b))
      = ('{' :: '{' :: (w1 ++ k ++ w2 ++ ['}', '}'])) ++ rest := by
    rw [hseq]
    simp [List.append_assoc]
  rcases List.append_eq_append_iff.mp hseq2 with ⟨M2, hM2a, hM2b⟩ | ⟨a3, ha3, hrest⟩
  · cases M2 with
    | nil =>
      refine ⟨'{' :: '{' :: (w1 ++ k ++ w2 ++ ['}', '}']), [], ?_, by simp, ?_⟩
      · rw [List.append_nil] at hM2a
        rw [List.append_nil]
        exact hM2a.symm
      · rw [List.nil_append] at hM2b
        rw [List.nil_append]
        exact hM2b.symm
    | cons t0 M2' =>
      exfalso
      simp only [List.cons_append] at hM2b
      injection hM2b with h1 hM2b
      cases a with
      | nil =>
        rw [List.nil_append] at hm
        rw [matchVar_malformed_none hk1 hk2 hbrace hbad] at hm
        cases hm
      | cons c a' =>
        cases a' with
        | nil =>
          simp only [List.cons_append, List.nil_append] at hM2a
          injection hM2a with hc hM2a
          injection hM2a with ht0 hM2a
          rw [← hM2a] at hM2b
          have hshape : (w1 ++ k ++ w2 ++ ['}', '}']) ++ rest
              = w1 ++ (k ++ (w2 ++ (['}', '}'] ++ rest))) := by
            simp [List.append_assoc]
          rw [hshape] at hM2b
          obtain ⟨m0, X, hhead, hm0⟩ :=
            exists_head_ne_lbrace (w2 ++ (['}', '}'] ++ rest)) hw1 hk1 hk2
          rw [hhead] at hM2b
          injection hM2b with h2 _
          exact hm0 h2.symm
        | cons c2 a2 =>
          simp only [List.cons_append] at hM2a
          injection hM2a with _ hM2a
          injection hM2a with _ hM2a
          have hmem : '{' ∈ w1 ++ k ++ w2 ++ ['}', '}'] := by
            rw [hM2a, ← h1]
            exact List.mem_append_right _ (List.mem_cons_self _ _)
          rcases List.mem_append.mp hmem with h3 | h3
          · rcases List.mem_append.mp h3 with h4 | h4
            · rcases List.mem_append.mp h4 with h5 | h5
              · exact ws_ne_lbrace (hw1 _ h5) rfl
              · exact word_ne_lbrace (hk2 _ h5) rfl
            · exact ws_ne_lbrace (hw2 _ h4) rfl
          · exact absurd h3 (by decide)
  · exact ⟨'{' :: '{' :: (w1 ++ k ++ w2 ++ ['}', '}']), a3, ha3, by simp, hrest⟩

theorem replaceGo_preserves {k inner : List Char} (hk1 : k ≠ [])
    (hk2 : ∀ x ∈ k, isWordChar x = true)
    (hbrace : ∀ x ∈ inner, x ≠ '{' ∧ x ≠ '}')
    (hbad : ∃ x ∈ trimWs inner, isWordChar x = false) (v b : List Char) :
    ∀ (n : Nat) (a pre : List Char), a.length ≤ n →
      ∃ a2, replaceGo k v (a ++ ('{' :: '{' :: (inner ++ '}' :: '}' :: b))) 0 pre
        = a2 ++ (('{' :: '{' :: (inner ++ ['}', '}']))
            ++ replaceGo k v b 0 ((pre ++ a) ++ ('{' :: '{' :: (inner ++ ['}', '}'])))) := by
  intro n
  induction n with
  | zero =>
    intro a pre hlen
    have ha : a = [] := List.eq_nil_of_length_eq_zero (Nat.le_zero.mp hlen)
    subst ha
    refine ⟨[], ?_⟩
    simp only [List.nil_append, List.append_nil]
    exact replaceGo_token_head hk1 hk2 hbrace hbad v b pre
  | succ n ih =>
    intro a pre hlen
    cases hmv : matchVar k (a ++ ('{' :: '{' :: (inner ++ '}' :: '}' :: b))) with
    | none =>
      cases a with
      | nil =>
        refine ⟨[], ?_⟩
        simp only [List.nil_append, List.append_nil]
        exact replaceGo_token_head hk1 hk2 hbrace hbad v b pre
      | cons c a' =>
        obtain ⟨a2, ha2⟩ := ih a' (pre ++ [c])
          (by simp only [List.length_cons] at hlen; omega)
        refine ⟨c :: a2, ?_⟩
        rw [List.cons_append] at hmv
        rw [List.cons_append, replaceGo_nomatch v pre hmv, ha2]
        simp [List.append_assoc]
    | some rest =>
      obtain ⟨M, a3, haM, hMne, hrest⟩ := matchVar_context_split hk1 hk2 hbrace hbad hmv
      have hdecomp : a ++ ('{' :: '{' :: (inner ++ '}' :: '}' :: b)) = M ++ rest := by
        rw [haM, hrest]
        simp [List.append_assoc]
      have ha3len : a3.length ≤ n := by
        have h1 : a.length = M.length + a3.length := by rw [haM]; simp
        have h2 : 1 ≤ M.length := by
          cases M with
          | nil => exact absurd rfl hMne
          | cons _ _ => simp
        omega
      obtain ⟨a2, ha2⟩ := ih a3 (pre ++ M) ha3len
      refine ⟨getSubstitution M pre rest v ++ a2, ?_⟩
      rw [replaceGo_match v pre hmv hdecomp hMne]
      rw [hrest]
      rw [ha2]
      rw [haM]
      simp [List.append_assoc]

theorem substituteVars_preserves_token {inner : List Char}
    (B : List (List Char × List Char))
    (hB : ∀ kv ∈ B, kv.1 ≠ [] ∧ (∀ x ∈ kv.1, isWordChar x = true))
    (hbrace : ∀ x ∈ inner, x ≠ '{' ∧ x ≠ '}')
    (hbad : ∃ x ∈ trimWs inner, isWordChar x = false) :
    ∀ (a b : List Char), ∃ a2 b2,
      substituteVars B (a ++ ('{' :: '{' :: (inner ++ ['}', '}'])) ++ b)
        = a2 ++ ('{' :: '{' :: (inner ++ ['}', '}'])) ++ b2 := by
  unfold substituteVars
  induction B with
  | nil =>
    intro a b
    exact ⟨a, b, rfl⟩
  | cons kv Bs ih =>
    intro a b
    obtain ⟨a2, ha2⟩ := replaceGo_preserves (hB kv (by simp)).1 (hB kv (by simp)).2
      hbrace hbad kv.2 b a.length a [] le_rfl
    have ha2v : replaceVar kv.1 kv.2 (a ++ ('{' :: '{' :: (inner ++ '}' :: '}' :: b)))
        = a2 ++ (('{' :: '{' :: (inner ++ ['}', '}']))
            ++ replaceGo kv.1 kv.2 b 0 (([] ++ a) ++ ('{' :: '{' :: (inner ++ ['}', '}'])))) :=
      ha2
    obtain ⟨a2f, b2f, hf⟩ := ih (fun kv2 hkv2 => hB kv2 (by simp [hkv2])) a2
      (replaceGo kv.1 kv.2 b 0 (([] ++ a) ++ ('{' :: '{' :: (inner ++ ['}', '}']))))
    refine ⟨a2f, b2f, ?_⟩
    have hshape : a ++ ('{' :: '{' :: (inner ++ ['}', '}'])) ++ b
        = a ++ ('{' :: '{' :: (inner ++ '}' :: '}' :: b)) := by
      simp [List.append_assoc]
    rw [List.foldl_cons, hshape, ha2v, ← List.append_assoc]
    exact hf

theorem replaceGo_eq_specGo {k v : List Char} (hk1 : k ≠ [])
    (hk2 : ∀ x ∈ k, isWordChar x = true) (hv : '$' ∉ v) :
    ∀ (n : Nat) (t pre : List Char), t.length ≤ n →
      replaceGo k v t 0 pre = specGo [(k, v)] t 0 := by
  intro n
  induction n with
  | zero =>
    intro t pre hlen
    have ht : t = [] := List.eq_nil_of_length_eq_zero (Nat.le_zero.mp hlen)
    subst ht
    rfl
  | succ n ih =>
    intro t pre hlen
    cases ht : matchVarToken t with
    | none =>
      cases t with
      | nil => rfl
      | cons c cs =>
        rw [replaceGo_nomatch v pre (matchVar_none_of_token_none hk1 hk2 ht),
          specGo_nomatch _ ht]
        rw [ih cs (pre ++ [c]) (by simp only [List.length_cons] at hlen; omega)]
    | some triple =>
      obtain ⟨tok, name, rest⟩ := triple
      obtain ⟨w1, w2, htok, hseq, hww1, hww2, hn1, hn2⟩ := matchVarToken_decomp ht
      have htoknil : tok ≠ [] := by rw [htok]; simp
      have hrestlen : rest.length ≤ n := by
        have : t.length = tok.length + rest.length := by
          rw [hseq, List.length_append]
        have htl : 2 ≤ tok.length := by
          rw [htok]
          simp only [List.length_cons]
          omega
        omega
      by_cases hnk : name = k
      · subst hnk
        have hmv : matchVar name t = some rest := matchVar_of_token ht
        rw [replaceGo_match v pre hmv hseq htoknil]
        rw [getSubstitution_no_dollar _ _ _ hv]
        rw [specGo_match _ ht]
        have hlook : lookupB [(name, v)] name = some v := by simp [lookupB]
        simp only [hlook]
        rw [ih rest (pre ++ tok) hrestlen]
      · have hmv : matchVar k t = none := matchVar_none_of_token_ne hk1 hk2 ht hnk
        have hgo : replaceGo k v t 0 pre = tok ++ replaceGo k v rest 0 (pre ++ tok) := by
          rw [hseq, htok] at hmv ⊢
          rw [List.cons_append] at hmv ⊢
          rw [replaceGo_nomatch v pre hmv]
          rw [List.cons_append]
          obtain ⟨m0, X, hhead, hm0⟩ := exists_head_ne_lbrace (w2 ++ ['}', '}'] ++ rest) hww1 hn1 hn2
          have hshape : (w1 ++ name ++ w2 ++ ['}', '}']) ++ rest = w1 ++ (name ++ (w2 ++ ['}', '}'] ++ rest)) := by
            simp [List.append_assoc]
          rw [hshape, hhead]
          rw [replaceGo_nomatch v _ (matchVar_second_ne k '{' X hm0)]
          rw [← hhead, ← hshape]
          have hwalk := replaceGo_walk k v (w1 ++ name ++ w2 ++ ['}', '}']) rest
            (pre ++ ['{'] ++ ['{'])
            (by
              intro x hx
              rcases List.mem_append.mp hx with hx | hx
              · rcases List.mem_append.mp hx with hx | hx
                · rcases List.mem_append.mp hx with hx | hx
                  · exact ws_ne_lbrace (hww1 x hx)
                  · exact word_ne_lbrace (hn2 x hx)
                · exact ws_ne_lbrace (hww2 x hx)
              · simp only [List.mem_cons, List.mem_singleton] at hx
                rcases hx with hx | hx | hx
                · subst hx; decide
                · subst hx; decide
                · cases hx)
          rw [hwalk]
          simp [List.append_assoc]
        rw [hgo, specGo_match _ ht]
        have hkn : ¬(k = name) := fun h2 => hnk h2.symm
        have hlook : lookupB [(k, v)] name = none := by simp [lookupB, hkn]
        simp only [hlook]
        rw [ih rest (pre ++ tok) hrestlen]

theorem substituteVars_single_eq_spec {k v : List Char} (t : List Char) (hk1 : k ≠ [])
    (hk2 : ∀ x ∈ k, isWordChar x = true) (hv : '$' ∉ v) :
    substituteVars [(k, v)] t = substituteSpec [(k, v)] t := by
  have h := replaceGo_eq_specGo hk1 hk2 hv t.length t [] le_rfl
  simpa [substituteVars, replaceVar, substituteSpec] using h

theorem lexLe_total : ∀ (a b : List Char), lexLe a b = true ∨ lexLe b a = true
  | [], _ => Or.inl rfl
  | _ :: _, [] => Or.inr rfl
  | a :: as, b :: bs => by
    by_cases h1 : a.toNat < b.toNat
    · left
      simp [lexLe, h1]
    · by_cases h2 : b.toNat < a.toNat
      · right
        simp [lexLe, h2]
      · have h := lexLe_total as bs
        rcases h with h | h
        · left
          simp [lexLe, h1, h2, h]
        · right
          simp [lexLe, h1, h2, h]

theorem lexLe_trans : ∀ (a b c : List Char),
    lexLe a b = true → lexLe b c = true → lexLe a c = true
  | [], _, _, _, _ => rfl
  | _ :: _, [], _, h1, _ => by cases h1
  | _ :: _, _ :: _, [], _, h2 => by cases h2
  | a :: as, b :: bs, c :: cs, h1, h2 => by
    simp only [lexLe] at h1 h2 ⊢
    by_cases hab : a.toNat < b.toNat
    · by_cases hbc : b.toNat < c.toNat
      · simp [show a.toNat < c.toNat from Nat.lt_trans hab hbc]
      · by_cases hcb : c.toNat < b.toNat
        · rw [if_neg hbc, if_pos hcb] at h2
          cases h2
        · simp [show a.toNat < c.toNat by omega]
    · by_cases hba : b.toNat < a.toNat
      · rw [if_neg hab, if_pos hba] at h1
        cases h1
      · rw [if_neg hab, if_neg hba] at h1
        by_cases hbc : b.toNat < c.toNat
        · simp [show a.toNat < c.toNat by omega]
        · by_cases hcb : c.toNat < b.toNat
          · rw [if_neg hbc, if_pos hcb] at h2
            cases h2
          · rw [if_neg hbc, if_neg hcb] at h2
            rw [if_neg (show ¬a.toNat < c.toNat by omega),
              if_neg (show ¬c.toNat < a.toNat by omega)]
            exact lexLe_trans as bs cs h1 h2

theorem foldl_max_init_le : ∀ (l : List Nat) (a : Nat), a ≤ l.foldl Nat.max a
  | [], a => le_refl a
  | y :: ys, a => le_trans (Nat.le_max_left a y) (foldl_max_init_le ys (Nat.max a y))

theorem foldl_max_le_mem : ∀ (l : List Nat) (a : Nat), ∀ x ∈ l, x ≤ l.foldl Nat.max a
  | [], _, x, hx => absurd hx (List.not_mem_nil x)
  | y :: ys, a, x, hx => by
    rcases List.mem_cons.mp hx with hx | hx
    · subst hx
      exact le_trans (Nat.le_max_right a x) (foldl_max_init_le ys (Nat.max a x))
    · exact foldl_max_le_mem ys (Nat.max a y) x hx

theorem foldl_max_mem_or : ∀ (l : List Nat) (a : Nat),
    l.foldl Nat.max a ∈ l ∨ l.foldl Nat.max a = a
  | [], _ => Or.inr rfl
  | y :: ys, a => by
    rcases foldl_max_mem_or ys (Nat.max a y) with h | h
    · exact Or.inl (List.mem_cons_of_mem y h)
    · rw [List.foldl_cons, h]
      rcases Nat.le_total a y with hy | hy
      · have hmax : Nat.max a y = y :=
          Nat.le_antisymm (Nat.max_le.mpr ⟨hy, Nat.le_refl y⟩) (Nat.le_max_right a y)
        exact Or.inl (by rw [hmax]; exact List.mem_cons_self y ys)
      · have hmax : Nat.max a y = a :=
          Nat.le_antisymm (Nat.max_le.mpr ⟨Nat.le_refl a, hy⟩) (Nat.le_max_left a y)
        exact Or.inr hmax

theorem foldl_max_attained (l : List Nat) (hl : l ≠ []) : l.foldl Nat.max 0 ∈ l := by
  rcases foldl_max_mem_or l 0 with h | h
  · exact h
  · cases l with
    | nil => exact absurd rfl hl
    | cons y ys =>
      have hy : y ≤ (y :: ys).foldl Nat.max 0 := foldl_max_le_mem _ 0 y (by simp)
      rw [h] at hy
      have hy0 : y = 0 := Nat.le_zero.mp hy
      rw [h, ← hy0]
      exact List.mem_cons_self y ys

theorem pickLatest_mem : ∀ (ps : List PromptV) (p : PromptV), pickLatest p ps ∈ p :: ps
  | [], p => by simp [pickLatest]
  | q :: qs, p => by
    have e : pickLatest p (q :: qs)
        = pickLatest (if p.version < q.version then q else p) qs := rfl
    rw [e]
    have h := pickLatest_mem qs (if p.version < q.version then q else p)
    rcases List.mem_cons.mp h with h | h
    · rw [h]
      by_cases hv : p.version < q.version
      · rw [if_pos hv]
        simp
      · rw [if_neg hv]
        simp
    · exact List.mem_cons_of_mem p (List.mem_cons_of_mem q h)

theorem pickLatest_max : ∀ (ps : List PromptV) (p : PromptV),
    ∀ r ∈ p :: ps, r.version ≤ (pickLatest p ps).version
  | [], p, r, hr => by
    have : r = p := by simpa using hr
    subst this
    simp [pickLatest]
  | q :: qs, p, r, hr => by
    have e : pickLatest p (q :: qs)
        = pickLatest (if p.version < q.version then q else p) qs := rfl
    rw [e]
    rcases List.mem_cons.mp hr with hr | hr
    · subst hr
      have h1 : r.version ≤ (if r.version < q.version then q else r).version := by
        by_cases hv : r.version < q.version
        · rw [if_pos hv]
          exact Nat.le_of_lt hv
        · rw [if_neg hv]
      exact le_trans h1 (pickLatest_max qs _ _ (List.mem_cons_self _ _))
    · rcases List.mem_cons.mp hr with hr | hr
      · subst hr
        have h1 : r.version ≤ (if p.version < r.version then r else p).version := by
          by_cases hv : p.version < r.version
          · rw [if_pos hv]
          · rw [if_neg hv]
            omega
        exact le_trans h1 (pickLatest_max qs _ _ (List.mem_cons_self _ _))
      · exact pickLatest_max qs _ r (List.mem_cons_of_mem _ hr)

theorem filter_ne_eq_eraseP (id : String) : ∀ (l : List PromptV),
    (l.map (fun p => p.id)).Nodup →
    l.filter (fun p => !(p.id == id)) = l.eraseP (fun p => p.id == id)
  | [], _ => rfl
  | p :: ps, hnd => by
    rw [List.map_cons] at hnd
    obtain ⟨hpnotin, hnd2⟩ := List.nodup_cons.mp hnd
    cases hpb : (p.id == id) with
    | true =>
      have hpid : p.id = id := by simpa using hpb
      have hall : ∀ q ∈ ps, (!(q.id == id)) = true := by
        intro q hq
        have hqne : q.id ≠ p.id := by
          intro hqe
          exact hpnotin (hqe ▸ List.mem_map_of_mem (fun r => r.id) hq)
        simp [hpid ▸ hqne]
      have hfil : ps.filter (fun q => !(q.id == id)) = ps := List.filter_eq_self.mpr hall
      simp [List.filter_cons, List.eraseP_cons, hpb, hfil]
    | false =>
      have ih := filter_ne_eq_eraseP id ps hnd2
      simp [List.filter_cons, List.eraseP_cons, hpb, ih]

theorem ceil_helper (n q : Nat) (h1 : n ≤ 4 * q) (h2 : 4 * q ≤ n + 3) :
    ((q : Nat) : ℤ) = Int.ceil ((n : ℚ) / 4) := by
  symm
  rw [Int.ceil_eq_iff]
  constructor
  · rw [lt_div_iff₀ (by norm_num : (0 : ℚ) < 4)]
    have h : (4 : ℚ) * q ≤ (n : ℚ) + 3 := by exact_mod_cast h2
    push_cast
    linarith
  · rw [div_le_iff₀ (by norm_num : (0 : ℚ) < 4)]
    have h : (n : ℚ) ≤ 4 * q := by exact_mod_cast h1
    push_cast
    linarith

theorem ceil_div4 (n : Nat) : (((n + 3) / 4 : Nat) : ℤ) = Int.ceil ((n : ℚ) / 4) := by
  have hdm := Nat.div_add_mod (n + 3) 4
  have hml : (n + 3) % 4 < 4 := Nat.mod_lt _ (by norm_num)
  exact ceil_helper n _ (by omega) (by omega)

theorem estimateTokens_eq (s : String) : estimateTokens s = (s.length + 3) / 4 := by
  by_cases h : s = ""
  · subst h
    rfl
  · simp [estimateTokens, h]


/-- Claim C1: the claim is false as stated.  The substitution step of handleRunPrompt applies
the bindings sequentially, so a bound value containing a later binding placeholder is
substituted again instead of being kept verbatim, and a bound value containing a JS
dollar sequence is expanded rather than inserted verbatim.  The one-pass verbatim
semantics substituteSpec disagrees with the implemented substituteVars on this
template and binding map. -/
theorem c1_counterexample :
    substituteVars [(['a'], ['{', '{', 'b', '}', '}']), (['b'], ['X'])]
      ['{', '{', 'a', '}', '}', ' ', '{', '{', 'b', '}', '}'] = ['X', ' ', 'X'] ∧
    substituteSpec [(['a'], ['{', '{', 'b', '}', '}']), (['b'], ['X'])]
      ['{', '{', 'a', '}', '}', ' ', '{', '{', 'b', '}', '}']
      = ['{', '{', 'b', '}', '}', ' ', 'X'] ∧
    (['X', ' ', 'X'] : List Char) ≠ ['{', '{', 'b', '}', '}', ' ', 'X'] ∧
    substituteVars [(['a'], ['$', '&'])] ['{', '{', 'a', '}', '}'] = ['{', '{', 'a', '}', '}'] ∧
    substituteSpec [(['a'], ['$', '&'])] ['{', '{', 'a', '}', '}'] = ['$', '&'] := by
  refine ⟨by decide, by decide, by decide, by decide, by decide⟩

/-- Claim C1 amended: substitution applies the bindings one global replace at a time, in map
order, and text inserted by an earlier binding is subject to the later ones; for a
binding map with a single binding whose name is a nonempty word-character name and
whose value contains no dollar character, the claimed behavior holds exactly: every
occurrence of that placeholder, with any internal whitespace, is replaced by the bound
string verbatim, and all other text, including placeholders of other names, is left
literally unchanged, as captured by agreement with the one-pass specification
semantics substituteSpec. -/
theorem c1_sequential_substitution (k v t : List Char) (hk1 : k ≠ [])
    (hk2 : k.all isWordChar = true) (hv : '$' ∉ v) :
    substituteVars [(k, v)] t = substituteSpec [(k, v)] t :=
  substituteVars_single_eq_spec t hk1 (List.all_eq_true.mp hk2) hv

/-- Claim C1 witness: the single binding of the word name a replaces both of its
occurrences and leaves the unbound placeholder of b alone, matching the
specification semantics on a concrete template. -/
theorem c1_sequential_substitution_witness :
    substituteVars [(['a'], ['o', 'k'])]
      ['{', '{', 'a', '}', '}', ' ', '{', '{', 'b', '}', '}', '{', '{', ' ', 'a', ' ', '}', '}']
      = substituteSpec [(['a'], ['o', 'k'])]
      ['{', '{', 'a', '}', '}', ' ', '{', '{', 'b', '}', '}', '{', '{', ' ', 'a', ' ', '}', '}'] :=
  c1_sequential_substitution (['a']) (['o', 'k'])
    (['{', '{', 'a', '}', '}', ' ', '{', '{', 'b', '}', '}', '{', '{', ' ', 'a', ' ', '}', '}'])
    (by decide) (by decide) (by decide)

/-- Claim C10: placeholder names are recognized only when made entirely of word characters.
Variable extraction reports only nonempty word-character names, and a brace token
whose trimmed inner text contains any non-word character is never replaced by
substitution with word-named bindings: wherever the token occurs in a template,
surrounded by arbitrary text, it survives every substitution pass literally, and the
template consisting of exactly the token is returned unchanged. -/
theorem c10_word_only_placeholders (inner sys usr a b : List Char)
    (B : List (List Char × List Char))
    (hB : ∀ kv ∈ B, kv.1 ≠ [] ∧ kv.1.all isWordChar = true)
    (hbrace : ∀ x ∈ inner, x ≠ '{' ∧ x ≠ '}')
    (hbad : ∃ x ∈ trimWs inner, isWordChar x = false) :
    (∃ a2 b2, substituteVars B (a ++ ('{' :: '{' :: (inner ++ ['}', '}'])) ++ b)
        = a2 ++ ('{' :: '{' :: (inner ++ ['}', '}'])) ++ b2) ∧
    substituteVars B ('{' :: '{' :: (inner ++ ['}', '}'])) = '{' :: '{' :: (inner ++ ['}', '}']) ∧
    allWordNames (extractVariables sys usr) := by
  refine ⟨?_, ?_, ?_⟩
  · exact substituteVars_preserves_token B
      (fun kv hkv => ⟨(hB kv hkv).1, List.all_eq_true.mp (hB kv hkv).2⟩) hbrace hbad a b
  · exact substituteVars_malformed_id B
      (fun kv hkv => ⟨(hB kv hkv).1, List.all_eq_true.mp (hB kv hkv).2⟩) hbrace hbad
  · intro n hn
    unfold extractVariables at hn
    have hn2 := dedupFirst_sub _ _ _ hn
    rcases List.mem_append.mp hn2 with h | h
    · exact scanGo_names sys 0 n h
    · exact scanGo_names usr 0 n h

/-- Claim C10 witness: the token of inner text a hyphen b survives substitution
literally inside a template with surrounding text, the bare token template is
returned unchanged, and extraction on concrete texts reports only word names. -/
theorem c10_word_only_placeholders_witness :
    (∃ a2 b2, substituteVars [(['x'], ['v'])]
        (['p', ' '] ++ ('{' :: '{' :: (['a', '-', 'b'] ++ ['}', '}']))
          ++ [' ', '{', '{', 'x', '}', '}'])
        = a2 ++ ('{' :: '{' :: (['a', '-', 'b'] ++ ['}', '}'])) ++ b2) ∧
    substituteVars [(['x'], ['v'])] ('{' :: '{' :: (['a', '-', 'b'] ++ ['}', '}']))
      = '{' :: '{' :: (['a', '-', 'b'] ++ ['}', '}']) ∧
    allWordNames (extractVariables [] ['{', '{', 'o', 'k', '}', '}']) :=
  c10_word_only_placeholders (['a', '-', 'b']) [] (['{', '{', 'o', 'k', '}', '}'])
    (['p', ' ']) ([' ', '{', '{', 'x', '}', '}']) ([(['x'], ['v'])])
    (by decide) (by decide) (by decide)

/-- Claim C2: the claim is false as stated.  Forking does not copy every editable field of
the source: the title of the forked record is the source title with a fork suffix
appended, not the source title. -/
theorem c2_counterexample :
    (handleForkPrompt sampleState1 ("p1") ("p9") ("t9")).prompts.map (fun p => p.title)
      = ["T", "T (Fork)"] ∧ ("T (Fork)" : String) ≠ "T" := by
  refine ⟨by decide, by decide⟩

/-- Claim C2 amended: for an existing source version, fork appends one record that copies
the editable fields of the source except the title, which becomes the source title
followed by the fork suffix; the new record carries the fresh id, roots a new lineage
at that id, has version one, records the source id as forkedFrom, carries the new
timestamp in both fields, and becomes selected.  A missing source id leaves the state
unchanged. -/
theorem c2_fork (st : AppState) (id newId now : String) :
    (st.prompts.find? (fun p => p.id == id) = none → handleForkPrompt st id newId now = st) ∧
    (∀ orig, st.prompts.find? (fun p => p.id == id) = some orig →
      (handleForkPrompt st id newId now).prompts.dropLast = st.prompts ∧
      (handleForkPrompt st id newId now).prompts.getLast?.map (fun q => q.id) = some newId ∧
      (handleForkPrompt st id newId now).prompts.getLast?.map (fun q => q.baseId) = some newId ∧
      (handleForkPrompt st id newId now).prompts.getLast?.map (fun q => q.version) = some 1 ∧
      (handleForkPrompt st id newId now).prompts.getLast?.map (fun q => q.forkedFrom)
        = some (some orig.id) ∧
      (handleForkPrompt st id newId now).prompts.getLast?.map (fun q => q.createdAt) = some now ∧
      (handleForkPrompt st id newId now).prompts.getLast?.map (fun q => q.updatedAt) = some now ∧
      (handleForkPrompt st id newId now).prompts.getLast?.map (fun q => q.title)
        = some (orig.title ++ " (Fork)") ∧
      (handleForkPrompt st id newId now).prompts.getLast?.map (fun q => q.description)
        = some orig.description ∧
      (handleForkPrompt st id newId now).prompts.getLast?.map (fun q => q.systemPrompt)
        = some orig.systemPrompt ∧
      (handleForkPrompt st id newId now).prompts.getLast?.map (fun q => q.userPrompt)
        = some orig.userPrompt ∧
      (handleForkPrompt st id newId now).prompts.getLast?.map (fun q => q.tags) = some orig.tags ∧
      (handleForkPrompt st id newId now).prompts.getLast?.map (fun q => q.folderId)
        = some orig.folderId ∧
      (handleForkPrompt st id newId now).selectedId = some newId) := by
  constructor
  · intro h
    simp [handleForkPrompt, h]
  · intro orig h
    simp [handleForkPrompt, h, List.dropLast_concat, List.getLast?_concat]

/-- Claim C2 witness: forking the single sample prompt produces the described record. -/
theorem c2_fork_witness :
    (handleForkPrompt sampleState1 ("p1") ("p9") ("t9")).prompts.dropLast
      = sampleState1.prompts ∧
    (handleForkPrompt sampleState1 ("p1") ("p9") ("t9")).prompts.getLast?.map (fun q => q.id)
      = some ("p9") ∧
    (handleForkPrompt sampleState1 ("p1") ("p9") ("t9")).prompts.getLast?.map (fun q => q.baseId)
      = some ("p9") ∧
    (handleForkPrompt sampleState1 ("p1") ("p9") ("t9")).prompts.getLast?.map (fun q => q.version)
      = some 1 ∧
    (handleForkPrompt sampleState1 ("p1") ("p9") ("t9")).prompts.getLast?.map (fun q => q.forkedFrom)
      = some (some (mkPrompt ("p1") ("p1") 1).id) ∧
    (handleForkPrompt sampleState1 ("p1") ("p9") ("t9")).prompts.getLast?.map (fun q => q.createdAt)
      = some ("t9") ∧
    (handleForkPrompt sampleState1 ("p1") ("p9") ("t9")).prompts.getLast?.map (fun q => q.updatedAt)
      = some ("t9") ∧
    (handleForkPrompt sampleState1 ("p1") ("p9") ("t9")).prompts.getLast?.map (fun q => q.title)
      = some ((mkPrompt ("p1") ("p1") 1).title ++ " (Fork)") ∧
    (handleForkPrompt sampleState1 ("p1") ("p9") ("t9")).prompts.getLast?.map (fun q => q.description)
      = some (mkPrompt ("p1") ("p1") 1).description ∧
    (handleForkPrompt sampleState1 ("p1") ("p9") ("t9")).prompts.getLast?.map (fun q => q.systemPrompt)
      = some (mkPrompt ("p1") ("p1") 1).systemPrompt ∧
    (handleForkPrompt sampleState1 ("p1") ("p9") ("t9")).prompts.getLast?.map (fun q => q.userPrompt)
      = some (mkPrompt ("p1") ("p1") 1).userPrompt ∧
    (handleForkPrompt sampleState1 ("p1") ("p9") ("t9")).prompts.getLast?.map (fun q => q.tags)
      = some (mkPrompt ("p1") ("p1") 1).tags ∧
    (handleForkPrompt sampleState1 ("p1") ("p9") ("t9")).prompts.getLast?.map (fun q => q.folderId)
      = some (mkPrompt ("p1") ("p1") 1).folderId ∧
    (handleForkPrompt sampleState1 ("p1") ("p9") ("t9")).selectedId = some ("p9") :=
  (c2_fork sampleState1 ("p1") ("p9") ("t9")).2 (mkPrompt ("p1") ("p1") 1) (by decide)

/-- Claim C3: creating a new version from an existing source appends one record copying the
editable fields of the source, keeping its baseId, with the fresh id, the new
timestamp in both timestamp fields, and a version number that is strictly above every
version in the lineage of the source baseId and exactly one more than one of them;
the new record becomes selected, and a missing source id leaves the state
unchanged. -/
theorem c3_new_version (st : AppState) (promptId newId now : String) :
    (st.prompts.find? (fun p => p.id == promptId) = none →
      handleNewVersion st promptId newId now = st) ∧
    (∀ src, st.prompts.find? (fun p => p.id == promptId) = some src →
      (handleNewVersion st promptId newId now).prompts.dropLast = st.prompts ∧
      (handleNewVersion st promptId newId now).prompts.getLast?.map (fun q => q.id)
        = some newId ∧
      (handleNewVersion st promptId newId now).prompts.getLast?.map (fun q => q.baseId)
        = some src.baseId ∧
      (handleNewVersion st promptId newId now).prompts.getLast?.map (fun q => q.createdAt)
        = some now ∧
      (handleNewVersion st promptId newId now).prompts.getLast?.map (fun q => q.updatedAt)
        = some now ∧
      (handleNewVersion st promptId newId now).prompts.getLast?.map (fun q => q.title)
        = some src.title ∧
      (handleNewVersion st promptId newId now).prompts.getLast?.map (fun q => q.description)
        = some src.description ∧
      (handleNewVersion st promptId newId now).prompts.getLast?.map (fun q => q.systemPrompt)
        = some src.systemPrompt ∧
      (handleNewVersion st promptId newId now).prompts.getLast?.map (fun q => q.userPrompt)
        = some src.userPrompt ∧
      (handleNewVersion st promptId newId now).prompts.getLast?.map (fun q => q.tags)
        = some src.tags ∧
      (handleNewVersion st promptId newId now).prompts.getLast?.map (fun q => q.folderId)
        = some src.folderId ∧
      (handleNewVersion st promptId newId now).prompts.getLast?.map (fun q => q.version)
        = some (((st.prompts.filter (fun p => p.baseId == src.baseId)).map
            (fun p => p.version)).foldl Nat.max 0 + 1) ∧
      versionIsSuccOfMax (((st.prompts.filter (fun p => p.baseId == src.baseId)).map
          (fun p => p.version)).foldl Nat.max 0 + 1)
        (st.prompts.filter (fun p => p.baseId == src.baseId)) ∧
      (handleNewVersion st promptId newId now).selectedId = some newId) := by
  constructor
  · intro h
    simp [handleNewVersion, h]
  · intro src h
    have hmem : src ∈ st.prompts := List.mem_of_find?_eq_some h
    have hmemf : src ∈ st.prompts.filter (fun p => p.baseId == src.baseId) :=
      List.mem_filter.mpr ⟨hmem, by simp⟩
    have hmapne : (st.prompts.filter (fun p => p.baseId == src.baseId)).map
        (fun p => p.version) ≠ [] := by
      intro he
      rw [List.map_eq_nil_iff] at he
      rw [he] at hmemf
      cases hmemf
    have hsucc : versionIsSuccOfMax (((st.prompts.filter (fun p => p.baseId == src.baseId)).map
        (fun p => p.version)).foldl Nat.max 0 + 1)
        (st.prompts.filter (fun p => p.baseId == src.baseId)) := by
      constructor
      · intro q hq
        have hqv := foldl_max_le_mem _ 0 q.version
          (List.mem_map_of_mem (fun p => p.version) hq)
        omega
      · obtain ⟨q, hq, hqv⟩ := List.mem_map.mp (foldl_max_attained _ hmapne)
        exact ⟨q, hq, by omega⟩
    refine ⟨?_, ?_, ?_, ?_, ?_, ?_, ?_, ?_, ?_, ?_, ?_, ?_, hsucc, ?_⟩ <;>
      simp [handleNewVersion, h, List.dropLast_concat, List.getLast?_concat]

/-- Claim C3 witness: a lineage at versions one, two and four yields version five, rooted at
the same baseId, regardless of creating from the version-two member. -/
theorem c3_new_version_witness :
    (handleNewVersion sampleState124 ("x2") ("x9") ("t9")).prompts.getLast?.map
      (fun q => q.version) = some 5 ∧
    (handleNewVersion sampleState124 ("x2") ("x9") ("t9")).prompts.getLast?.map
      (fun q => q.baseId) = some ("X") ∧
    (handleNewVersion sampleState124 ("x2") ("x9") ("t9")).selectedId = some ("x9") := by
  have h := (c3_new_version sampleState124 ("x2") ("x9") ("t9")).2 (mkPrompt ("x2") ("X") 2)
    (by decide)
  obtain ⟨h1, h2, h3, h4, h5, h6, h7, h8, h9, h10, h11, h12, h13, h14⟩ := h
  exact ⟨h12, h3, h14⟩

/-- Claim C4: the claim is false as stated.  When the deleted record was selected, no
lineage member survives, and the adjacent surviving item at the prior position of the
deleted record has the empty string as its id, the code coerces the falsy id to a
null selection instead of selecting that adjacent item. -/
theorem c4_counterexample :
    (handleDeletePrompt sampleStateEmptyId ("x")).prompts = [mkPrompt ("") ("A") 1] ∧
    ((handleDeletePrompt sampleStateEmptyId ("x")).prompts.get? 0).map (fun p => p.id)
      = some ("") ∧
    (handleDeletePrompt sampleStateEmptyId ("x")).prompts.filter
      (fun q => q.baseId == ("B")) = [] ∧
    (handleDeletePrompt sampleStateEmptyId ("x")).selectedId = none ∧
    (none : Option String) ≠ some ("") := by
  refine ⟨by decide, by decide, by decide, by decide, by decide⟩

/-- Claim C4 amended: deleteVersion removes exactly the record with the given id,
leaves the selection alone when that record was not selected, and otherwise reselects
the surviving lineage member of highest version when one exists, else the adjacent
survivor at the prior position of the deleted record, then the one before it, except
that an empty-string survivor id is coerced to the null selection, else nothing. -/
theorem c4_delete_version (st : AppState) (id : String) (del : PromptV)
    (hnd : (st.prompts.map (fun p => p.id)).Nodup)
    (hfind : st.prompts.find? (fun p => p.id == id) = some del) :
    (handleDeletePrompt st id).prompts = st.prompts.eraseP (fun p => p.id == id) ∧
    (handleDeletePrompt st id).prompts.length + 1 = st.prompts.length ∧
    (st.selectedId ≠ some id → (handleDeletePrompt st id).selectedId = st.selectedId) ∧
    (st.selectedId = some id →
      latestSelected ((handleDeletePrompt st id).prompts.filter (fun q => q.baseId == del.baseId))
        ((handleDeletePrompt st id).selectedId) ∧
      ((handleDeletePrompt st id).prompts.filter (fun q => q.baseId == del.baseId) = [] →
        (handleDeletePrompt st id).selectedId =
          (match (handleDeletePrompt st id).prompts.get?
              (st.prompts.findIdx (fun p => p.id == id)) with
           | some nxt => if nxt.id = "" then none else some nxt.id
           | none =>
             match (handleDeletePrompt st id).prompts.get?
                 (st.prompts.findIdx (fun p => p.id == id) - 1) with
             | some prv => if prv.id = "" then none else some prv.id
             | none => none))) := by
  have hmem : del ∈ st.prompts := List.mem_of_find?_eq_some hfind
  have hdelid : (del.id == id) = true := by
    have hgen : ∀ (l : List PromptV), List.find? (fun p => p.id == id) l = some del →
        (del.id == id) = true := by
      intro l
      induction l with
      | nil => intro h3; cases h3
      | cons q qs ih =>
        intro h3
        cases hq : (q.id == id) with
        | true =>
          simp only [List.find?, hq] at h3
          injection h3 with h4
          rw [← h4]
          exact hq
        | false =>
          simp only [List.find?, hq] at h3
          exact ih h3
    exact hgen _ hfind
  have herase := filter_ne_eq_eraseP id st.prompts hnd
  have hprompts : (handleDeletePrompt st id).prompts
      = st.prompts.filter (fun p => !(p.id == id)) := by
    simp [handleDeletePrompt, hfind]
  have hlenpos : 0 < st.prompts.length := by
    cases hsp : st.prompts with
    | nil => rw [hsp] at hmem; cases hmem
    | cons a l => simp
  refine ⟨by rw [hprompts, herase], ?_, ?_, ?_⟩
  · rw [hprompts, herase, List.length_eraseP_of_mem hmem hdelid]
    omega
  · intro hne
    simp [handleDeletePrompt, hfind, if_neg hne]
  · intro hsel
    constructor
    · cases hl : (handleDeletePrompt st id).prompts.filter (fun q => q.baseId == del.baseId) with
      | nil => trivial
      | cons p ps =>
        refine ⟨?_, pickLatest_mem ps p, pickLatest_max ps p⟩
        rw [hprompts] at hl
        simp only [handleDeletePrompt, hfind, if_pos hsel, hl]
    · intro hempty
      rw [hprompts] at hempty
      simp only [handleDeletePrompt, hfind, if_pos hsel, hempty, hprompts]

/-- Claim C4 witness: deleting the selected first version of a two-version lineage removes
exactly that record and selects the remaining version. -/
theorem c4_delete_version_witness :
    (handleDeletePrompt sampleState2 ("x1")).prompts
      = sampleState2.prompts.eraseP (fun p => p.id == ("x1")) ∧
    (handleDeletePrompt sampleState2 ("x1")).selectedId = some ("x2") := by
  have h := c4_delete_version sampleState2 ("x1") (mkPrompt ("x1") ("X") 1)
    (by decide) (by decide)
  exact ⟨h.1, ((h.2.2.2 (by decide)).1).1⟩

/-- Claim C5: when the resolved provider transport fails, with a non-2xx response or a
thrown exception, runPrompt always rethrows a single normalized error: the result is
never an ordinary value, and the message either carries the generic API failure
prefix or is the fixed unknown-error message naming the provider; no
provider-specific exception shape reaches the caller. -/
theorem c5_normalized_errors (modelId apiKey userPrompt : String)
    (systemPrompt : Option String) (availableModels : List ModelDefinition)
    (tr : Transport) (hkey : apiKey ≠ "")
    (hfail : transportFails ((getModelProvider modelId availableModels).getD .openai) tr) :
    normalizedFailure ((getModelProvider modelId availableModels).getD .openai)
      (runPrompt modelId apiKey userPrompt systemPrompt availableModels tr) := by
  have hgen : ∀ p : Provider, transportFails p tr →
      normalizedFailure p (runWithProvider p apiKey userPrompt systemPrompt tr) := by
    intro p hf
    unfold runWithProvider
    rw [if_neg hkey]
    cases p with
    | gemini =>
      obtain ⟨m, hm⟩ := hf
      cases m with
      | none => simp [tryBody, hm, normalizedFailure]
      | some k =>
        simp only [tryBody, hm]
        exact Or.inl ⟨k, rfl⟩
    | openai =>
      rcases hf with ⟨em, hm⟩ | ⟨m, hm⟩
      · simp only [tryBody, hm]
        exact Or.inl ⟨"OpenAI API error: " ++ orUnknown em, rfl⟩
      · cases m with
        | none => simp [tryBody, hm, normalizedFailure]
        | some k =>
          simp only [tryBody, hm]
          exact Or.inl ⟨k, rfl⟩
    | anthropic =>
      rcases hf with ⟨em, hm⟩ | ⟨m, hm⟩
      · simp only [tryBody, hm]
        exact Or.inl ⟨"Anthropic API error: " ++ orUnknown em, rfl⟩
      · cases m with
        | none => simp [tryBody, hm, normalizedFailure]
        | some k =>
          simp only [tryBody, hm]
          exact Or.inl ⟨k, rfl⟩
  exact hgen _ hfail

/-- Claim C5 witness: a non-2xx OpenAI response surfaces as the normalized thrown error. -/
theorem c5_normalized_errors_witness :
    normalizedFailure ((getModelProvider ("gpt-4o")
        [{ id := "gpt-4o", name := "GPT 4o", provider := .openai }]).getD .openai)
      (runPrompt ("gpt-4o") ("k") ("hi") none
        [{ id := "gpt-4o", name := "GPT 4o", provider := .openai }] sampleTransport) :=
  c5_normalized_errors ("gpt-4o") ("k") ("hi") none
    [{ id := "gpt-4o", name := "GPT 4o", provider := .openai }] sampleTransport
    (by decide) (Or.inl ⟨some ("bad key"), rfl⟩)

/-- Claim C6: a model id that resolves to no provider through the caller-supplied models
and the built-in catalog is not rejected: the invocation proceeds exactly as under
the openai provider, and with an empty key it throws the openai configuration
error. -/
theorem c6_default_provider (modelId userPrompt : String) (systemPrompt : Option String)
    (availableModels : List ModelDefinition) (tr : Transport) (apiKey : String)
    (h : getModelProvider modelId availableModels = none) :
    runPrompt modelId apiKey userPrompt systemPrompt availableModels tr
      = runWithProvider .openai apiKey userPrompt systemPrompt tr ∧
    runPrompt modelId ("") userPrompt systemPrompt availableModels tr
      = .error ("API key for openai is not configured.") := by
  constructor
  · simp [runPrompt, h]
  · simp [runPrompt, h, runWithProvider, providerName]

/-- Claim C6 witness: an unknown model id with an empty catalog runs as openai and still
reports the missing-key configuration error for the empty key. -/
theorem c6_default_provider_witness :
    runPrompt ("made-up-model") ("k") ("hi") none [] sampleTransport
      = runWithProvider .openai ("k") ("hi") none sampleTransport ∧
    runPrompt ("made-up-model") ("") ("hi") none [] sampleTransport
      = .error ("API key for openai is not configured.") :=
  c6_default_provider ("made-up-model") ("hi") none [] sampleTransport ("k") (by decide)

/-- Claim C7: estimateTokens is the ceiling of a quarter of the string length, with the
stated concrete values, and the gemini path, the provider without native usage
reporting, builds the usage numbers from it: the prompt count is the estimate of the
user text plus the estimate of the system text, the completion count is the estimate
of the response text, and the total is their sum. -/
theorem c7_token_estimation (s modelId apiKey userPrompt : String)
    (systemPrompt : Option String) (availableModels : List ModelDefinition)
    (tr : Transport) (text : String) (hkey : apiKey ≠ "")
    (hres : (getModelProvider modelId availableModels).getD .openai = .gemini)
    (hok : tr.gemini = .ok text) :
    (estimateTokens s : ℤ) = Int.ceil ((s.length : ℚ) / 4) ∧
    estimateTokens ("") = 0 ∧ estimateTokens ("abcd") = 1 ∧ estimateTokens ("abcde") = 2 ∧
    runPrompt modelId apiKey userPrompt systemPrompt availableModels tr =
      .ok { text := text,
            usage := { promptTokens := estimateTokens userPrompt
                         + estimateTokens (systemPrompt.getD ("")),
                       completionTokens := estimateTokens text,
                       totalTokens := estimateTokens userPrompt
                         + estimateTokens (systemPrompt.getD ("")) + estimateTokens text } } := by
  refine ⟨?_, by decide, by decide, by decide, ?_⟩
  · rw [estimateTokens_eq]
    exact ceil_div4 s.length
  · simp [runPrompt, hres, runWithProvider, if_neg hkey, tryBody, hok]

/-- Claim C7 witness: the gemini model estimates two tokens for a five-character text. -/
theorem c7_token_estimation_witness :
    (estimateTokens ("abcde") : ℤ) = Int.ceil ((("abcde" : String).length : ℚ) / 4) ∧
    estimateTokens ("") = 0 ∧ estimateTokens ("abcd") = 1 ∧ estimateTokens ("abcde") = 2 ∧
    runPrompt ("gemini-2.5-flash") ("k") ("hello") none [] sampleTransport =
      .ok { text := "resp!",
            usage := { promptTokens := estimateTokens ("hello")
                         + estimateTokens ((none : Option String).getD ("")),
                       completionTokens := estimateTokens ("resp!"),
                       totalTokens := estimateTokens ("hello")
                         + estimateTokens ((none : Option String).getD (""))
                         + estimateTokens ("resp!") } } :=
  c7_token_estimation ("abcde") ("gemini-2.5-flash") ("k") ("hello") none [] sampleTransport
    ("resp!") (by decide) (by decide) rfl

/-- Claim C8: the live OpenAI catalog fetch returns the empty list on a thrown fetch or a
non-2xx response; on success with a nonempty key it returns, as a permutation of the
kept rows, exactly the entries whose id has the chat-model shape and whose ownership
field contains the vendor name, each mapped to the title-cased display model, sorted
descending by id under the code-point order; the stated concrete display names show
the title casing with the upper-cased vendor acronym. -/
theorem c8_fetch_models (apiKey : String) (data : List RawModel) :
    fetchOpenAIModels apiKey FetchOutcome.exn = [] ∧
    fetchOpenAIModels apiKey (FetchOutcome.resp false data) = [] ∧
    prettyModelName ("gpt-4-turbo") = "GPT 4 Turbo" ∧
    prettyModelName ("gpt-4o") = "GPT 4o" ∧
    (apiKey ≠ "" →
      (fetchOpenAIModels apiKey (FetchOutcome.resp true data)).Perm
        ((data.filter isChatModelRow).map mkOpenAIModel) ∧
      List.Sorted descById (fetchOpenAIModels apiKey (FetchOutcome.resp true data)) ∧
      modelsMatchData (fetchOpenAIModels apiKey (FetchOutcome.resp true data)) data) := by
  refine ⟨?_, ?_, by decide, by decide, ?_⟩
  · by_cases h : apiKey = "" <;> simp [fetchOpenAIModels, h]
  · by_cases h : apiKey = "" <;> simp [fetchOpenAIModels, h]
  · intro hk
    haveI : IsTotal ModelDefinition descById := ⟨fun a b => by
      unfold descById
      rcases lexLe_total b.id.data a.id.data with h | h
      · exact Or.inl h
      · exact Or.inr h⟩
    haveI : IsTrans ModelDefinition descById := ⟨fun a b c h1 h2 =>
      lexLe_trans c.id.data b.id.data a.id.data h2 h1⟩
    have hres : fetchOpenAIModels apiKey (FetchOutcome.resp true data)
        = List.insertionSort descById ((data.filter isChatModelRow).map mkOpenAIModel) := by
      simp [fetchOpenAIModels, hk]
    have hperm : (fetchOpenAIModels apiKey (FetchOutcome.resp true data)).Perm
        ((data.filter isChatModelRow).map mkOpenAIModel) := by
      rw [hres]
      exact List.perm_insertionSort _ _
    refine ⟨hperm, ?_, ?_, ?_⟩
    · rw [hres]
      exact List.sorted_insertionSort _ _
    · intro m hm
      have hm2 := hperm.mem_iff.mp hm
      obtain ⟨raw, hraw, hmk⟩ := List.mem_map.mp hm2
      obtain ⟨hdata, hpass⟩ := List.mem_filter.mp hraw
      exact ⟨raw, hdata, hpass, hmk.symm⟩
    · intro raw hraw hpass
      exact hperm.mem_iff.mpr
        (List.mem_map_of_mem mkOpenAIModel (List.mem_filter.mpr ⟨hraw, hpass⟩))

/-- Claim C8 witness: of the four sample rows only the two chat rows owned by the vendor
survive, sorted with the lexicographically larger id first. -/
theorem c8_fetch_models_witness :
    (fetchOpenAIModels ("k") (FetchOutcome.resp true sampleRawModels)).Perm
      ((sampleRawModels.filter isChatModelRow).map mkOpenAIModel) ∧
    List.Sorted descById (fetchOpenAIModels ("k") (FetchOutcome.resp true sampleRawModels)) ∧
    modelsMatchData (fetchOpenAIModels ("k") (FetchOutcome.resp true sampleRawModels))
      sampleRawModels :=
  (c8_fetch_models ("k") sampleRawModels).2.2.2.2 (by decide)

end Draftwise
